import Mathlib

/-!
Verification of the core of `merkle-trie-rs`, an Ethereum-style Merkle
Patricia Trie (files `src/nibbles.rs`, `src/node.rs`, `src/trie.rs`).

Modelling conventions of the shallow embedding:
* a byte string is a `List Nat` (each entry a byte value in honest data;
  the model does not truncate, mirroring that Rust `u8` data is always
  below 256);
* a raw key handed to the public API is a `List (Fin 256)`, mirroring
  Rust's `&[u8]`;
* a nibble is a `Fin 16`; `Nibbles::from_raw` only ever produces values
  below 16, and every nibble stored inside a trie node comes from
  `from_raw`, so the in-memory node type carries `Fin 16` nibbles;
* the untrusted decoder of `verify_proof` reads attacker-controlled byte
  strings, so its output type `DNode` carries plain `Nat` lists, exactly
  like the `Vec<u8>` fields that `Node::decode` fills in Rust;
* `insert_at` in Rust recurses on a measure that is not structural
  (nibbles shrink or the node shrinks), so the embedding adds an explicit
  fuel argument; fuel exhaustion returns `none` and is proved unreachable
  at the fuel the public `insert` passes (claim C10);
* Keccak-256 (legacy padding byte 0x01) is implemented in full on `Nat`
  so that root hashes are the real 32-byte digests.
-/

set_option maxRecDepth 40000

/-! ### Keccak-256 (tiny_keccak, legacy 0x01 padding) -/

/-- All 64 bits set; lanes live below `2 ^ 64`. -/
def mask64 : Nat := 0xFFFFFFFFFFFFFFFF

/-- Rotate a 64-bit lane left by `k` (for `k < 64`). -/
def rotl64 (x k : Nat) : Nat :=
  ((x <<< k) ||| (x >>> (64 - k))) % 18446744073709551616

/-- Keccak-f[1600] round constants. -/
def keccakRC : List Nat :=
  [1, 32898, 9223372036854808714, 9223372039002292224] ++
  [32907, 2147483649, 9223372039002292353, 9223372036854808585] ++
  [138, 136, 2147516425, 2147483658] ++
  [2147516555, 9223372036854775947, 9223372036854808713, 9223372036854808579] ++
  [9223372036854808578, 9223372036854775936, 32778, 9223372039002259466] ++
  [9223372039002292353, 9223372036854808704, 2147483649, 9223372039002292232]

/-- Rho rotation offsets, lane order `x + 5 * y`. -/
def keccakRot : List Nat :=
  [0, 1, 62, 28, 27] ++
  [36, 44, 6, 55, 20] ++
  [3, 10, 43, 25, 39] ++
  [41, 45, 15, 21, 8] ++
  [18, 2, 61, 56, 14]

/-- Theta step on a 25-lane state. -/
def keccakTheta (A : List Nat) : List Nat :=
  let C := (List.range 5).map fun x =>
    A.getD x 0 ^^^ A.getD (x + 5) 0 ^^^ A.getD (x + 10) 0 ^^^
      A.getD (x + 15) 0 ^^^ A.getD (x + 20) 0
  let D := (List.range 5).map fun x =>
    C.getD ((x + 4) % 5) 0 ^^^ rotl64 (C.getD ((x + 1) % 5) 0) 1
  (List.range 25).map fun i => A.getD i 0 ^^^ D.getD (i % 5) 0

/-- Combined rho and pi steps: output lane `(x, y)` is the rotated source
lane `((x + 3 y) % 5, x)`. -/
def keccakRhoPi (A : List Nat) : List Nat :=
  (List.range 25).map fun i =>
    let x := i % 5
    let y := i / 5
    let src := (x + 3 * y) % 5 + 5 * x
    rotl64 (A.getD src 0) (keccakRot.getD src 0)

/-- Chi step. -/
def keccakChi (B : List Nat) : List Nat :=
  (List.range 25).map fun i =>
    let x := i % 5
    let y := i / 5
    B.getD i 0 ^^^ ((mask64 ^^^ B.getD ((x + 1) % 5 + 5 * y) 0) &&&
      B.getD ((x + 2) % 5 + 5 * y) 0)

/-- The full 24-round Keccak-f[1600] permutation. -/
def keccakF (A : List Nat) : List Nat :=
  keccakRC.foldl
    (fun st rc =>
      let st' := keccakChi (keccakRhoPi (keccakTheta st))
      st'.set 0 (st'.getD 0 0 ^^^ rc))
    A

/-- Little-endian 8-byte word from a byte list. -/
def leWord (bs : List Nat) : Nat :=
  bs.foldr (fun b acc => b + 256 * acc) 0

/-- Little-endian bytes of one 64-bit lane. -/
def leBytes (w : Nat) : List Nat :=
  (List.range 8).map fun i => (w >>> (8 * i)) &&& 0xFF

/-- Absorb one 136-byte rate block into the state and permute. -/
def keccakAbsorb (st : List Nat) (block : List Nat) : List Nat :=
  keccakF ((List.range 25).map fun i =>
    st.getD i 0 ^^^ (if i < 17 then leWord ((block.drop (8 * i)).take 8) else 0))

/-- Legacy Keccak padding: append `0x01`, zero fill, set the top bit of the
final rate byte. -/
def keccakPad (msg : List Nat) : List Nat :=
  let padlen := 136 - msg.length % 136
  if padlen = 1 then msg ++ [0x81]
  else msg ++ 0x01 :: (List.replicate (padlen - 2) 0 ++ [0x80])

/-- Split into 136-byte blocks (fueled; fuel `l.length + 1` is plenty). -/
def rateChunks (fuel : Nat) (l : List Nat) : List (List Nat) :=
  match fuel with
  | 0 => []
  | f + 1 => if l = [] then [] else l.take 136 :: rateChunks f (l.drop 136)

/-- Keccak-256 digest (32 bytes) of a byte string. -/
def keccak256 (msg : List Nat) : List Nat :=
  let padded := keccakPad msg
  let st := (rateChunks (padded.length + 1) padded).foldl keccakAbsorb
    ((List.range 25).map fun _ => 0)
  ((List.range 4).map fun i => leBytes (st.getD i 0)).flatten

theorem keccak256_length (msg : List Nat) : (keccak256 msg).length = 32 := by
  simp [keccak256, leBytes, List.range_succ]

/-! ### Nibbles (src/nibbles.rs) -/

/-- High nibble of a byte (`byte >> 4`). -/
def hiNib (b : Fin 256) : Fin 16 :=
  ⟨b.val >>> 4, by
    have h := b.isLt
    simp only [Nat.shiftRight_eq_div_pow]
    omega⟩

/-- Low nibble of a byte (`byte & 0x0F`). -/
def loNib (b : Fin 256) : Fin 16 :=
  ⟨b.val &&& 0x0F, Nat.lt_succ_of_le Nat.and_le_right⟩

/-- `Nibbles::from_raw`: split each byte into (high, low) nibbles.  The
Rust `is_leaf` parameter is unused by the source; it is kept for
fidelity. -/
def from_raw (data : List (Fin 256)) (_is_leaf : Bool) : List (Fin 16) :=
  data.flatMap fun b => [hiNib b, loNib b]

/-- `EthTrie::common_prefix_len`: longest common prefix of two nibble
sequences (the Rust loop breaks at the first mismatch). -/
def common_prefix_len : List (Fin 16) → List (Fin 16) → Nat
  | a :: ta, b :: tb => if a = b then common_prefix_len ta tb + 1 else 0
  | _, _ => 0

/-- Packs consecutive nibble pairs into bytes, mirroring the
`step_by(2)` loops of `encode_compact`; only applied to even-length
sequences. -/
def pack_pairs : List (Fin 16) → List Nat
  | a :: b :: rest => ((a.val <<< 4) ||| b.val) :: pack_pairs rest
  | _ => []

/-- `encode_compact` (hex-prefix encoding) from src/nibbles.rs. -/
def encode_compact (nibbles : List (Fin 16)) (is_leaf : Bool) : List Nat :=
  if nibbles.length % 2 = 1 then
    let flag : Nat := if is_leaf then 0x3 else 0x1
    ((flag <<< 4) ||| (nibbles.headD 0).val) :: pack_pairs nibbles.tail
  else
    (if is_leaf then (0x20 : Nat) else 0x00) :: pack_pairs nibbles

/-! ### Node model and RLP encoding (src/node.rs) -/

/-- The in-memory node type.  Stored nibbles are `Fin 16` because every
nibble the Rust engine ever stores was produced by `Nibbles::from_raw`
(or is a suffix/prefix of such a sequence). -/
inductive Node where
  | null : Node
  | leaf (key : List (Fin 16)) (value : List Nat) : Node
  | ext (pfx : List (Fin 16)) (next : Node) : Node
  | branch (children : Fin 16 → Node) (value : Option (List Nat)) : Node

/-- The all-`Null` child array built at each split site. -/
def empty16 : Fin 16 → Node := fun _ => Node.null

/-- Node size, used only as a fuel measure for `insert_at`. -/
def Node.size : Node → Nat
  | .null => 1
  | .leaf _ _ => 1
  | .ext _ nx => 1 + nx.size
  | .branch ch _ => 1 + ((List.finRange 16).map fun i => (ch i).size).sum

/-- Minimal big-endian byte string of a length (fueled division loop;
`be_bytes n` passes fuel `n`, which suffices since `n / 256 < n`). -/
def be_bytes_aux : Nat → Nat → List Nat
  | 0, _ => []
  | f + 1, n => if n = 0 then [] else be_bytes_aux f (n / 256) ++ [n % 256]

/-- Big-endian bytes of a number, no leading zeros (RLP length form). -/
def be_bytes (n : Nat) : List Nat := be_bytes_aux n n

/-- RLP encoding of a byte string (`RlpStream::append` on `Vec<u8>`). -/
def rlp_encode_bytes (b : List Nat) : List Nat :=
  if b.length = 1 ∧ b.headD 0 < 0x80 then b
  else if b.length ≤ 55 then (0x80 + b.length) :: b
  else (0xb7 + (be_bytes b.length).length) :: (be_bytes b.length ++ b)

/-- RLP list header in front of an already-encoded payload. -/
def rlp_wrap_list (payload : List Nat) : List Nat :=
  if payload.length ≤ 55 then (0xc0 + payload.length) :: payload
  else (0xf7 + (be_bytes payload.length).length) :: (be_bytes payload.length ++ payload)

/-- The MPT inlining rule applied to an already-encoded child. -/
def inlined_or_hashed (e : List Nat) : List Nat :=
  if e.length < 32 then e else keccak256 e

/-- `rlp::encode(&node)` from the `Encodable` impl in src/node.rs.  Note
that the source appends each child's `hash_or_raw` bytes as an RLP
*string* item (`s.append(&next_data)`), so the encoding reflects that. -/
def Node.rlp_encode : Node → List Nat
  | .null => [0x80]
  | .leaf k v =>
      rlp_wrap_list (rlp_encode_bytes (encode_compact k true) ++ rlp_encode_bytes v)
  | .ext p nx =>
      rlp_wrap_list (rlp_encode_bytes (encode_compact p false) ++
        rlp_encode_bytes (inlined_or_hashed nx.rlp_encode))
  | .branch ch v =>
      rlp_wrap_list
        (((List.finRange 16).map fun i =>
            rlp_encode_bytes (inlined_or_hashed (ch i).rlp_encode)).flatten ++
          (match v with
           | some vv => rlp_encode_bytes vv
           | none => [0x80]))

/-- `Node::hash_or_raw`. -/
def Node.hash_or_raw (n : Node) : List Nat := inlined_or_hashed n.rlp_encode

/-- `EthTrie::compute_hash`. -/
def compute_hash (data : List Nat) : List Nat := keccak256 data

/-! ### Trie engine (src/trie.rs).  The trie state is its root node. -/

/-- `EthTrie::root_hash`: the unconditional Keccak-256 of the root's RLP
encoding. -/
def root_hash (root : Node) : List Nat := compute_hash root.rlp_encode

/-- `EthTrie::insert_at`, with explicit fuel for the non-structural
recursion (each call site decreases `nibbles.length + node.size`); fuel
exhaustion yields `none` and is proved unreachable at the fuel passed by
`insert`.  All other case structure mirrors the Rust source. -/
def insert_at : Nat → Node → List (Fin 16) → List Nat → Option Node
  | 0, _, _, _ => none
  | fuel + 1, node, nibbles, value =>
    match node with
    | .null => some (.leaf nibbles value)
    | .leaf lk lv =>
      let c := common_prefix_len lk nibbles
      if c = lk.length ∧ c = nibbles.length then
        some (.leaf lk value)
      else if c = 0 then
        match lk, nibbles with
        | [], [] => none
        | [], n0 :: nrest =>
            some (.branch (Function.update empty16 n0 (.leaf nrest value)) (some lv))
        | lk0 :: lkrest, [] =>
            some (.branch (Function.update empty16 lk0 (.leaf lkrest lv)) (some value))
        | lk0 :: lkrest, n0 :: nrest =>
            let ch1 := Function.update empty16 lk0 (Node.leaf lkrest lv)
            match insert_at fuel (ch1 n0) nrest value with
            | none => none
            | some cn => some (.branch (Function.update ch1 n0 cn) none)
      else
        let shared := nibbles.take c
        match lk.drop c, nibbles.drop c with
        | [], [] => some (.leaf shared value)
        | [], nr0 :: nrest =>
            let br := Node.branch (Function.update empty16 nr0 (.leaf nrest value)) (some lv)
            some (if 0 < c then .ext shared br else br)
        | lr0 :: lrest, [] =>
            let br := Node.branch (Function.update empty16 lr0 (.leaf lrest lv)) (some value)
            some (if 0 < c then .ext shared br else br)
        | lr0 :: lrest, nr0 :: nrest =>
            let ch := Function.update (Function.update empty16 lr0 (Node.leaf lrest lv))
              nr0 (Node.leaf nrest value)
            let br := Node.branch ch none
            some (if 0 < c then .ext shared br else br)
    | .ext p nx =>
      let c := common_prefix_len p nibbles
      if c = p.length then
        match insert_at fuel nx (nibbles.drop c) value with
        | none => none
        | some nx2 => some (.ext p nx2)
      else
        let shared := p.take c
        match p.drop c, nibbles.drop c with
        | [], _ => none
        | er0 :: erest, nr =>
          let ch1 := Function.update empty16 er0
            (if erest = [] then nx else Node.ext erest nx)
          match nr with
          | [] =>
              let br := Node.branch ch1 (some value)
              some (if 0 < c then .ext shared br else br)
          | nr0 :: nrest =>
              let br := Node.branch (Function.update ch1 nr0 (.leaf nrest value)) none
              some (if 0 < c then .ext shared br else br)
    | .branch ch bv =>
      match nibbles with
      | [] => some (.branch ch (some value))
      | n0 :: nrest =>
          match insert_at fuel (ch n0) nrest value with
          | none => none
          | some cn => some (.branch (Function.update ch n0 cn) bv)

/-- `EthTrie::insert`.  The fuel passed is one more than the decreasing
measure of `insert_at`, so the fallback `t` branch is dead code (claim
C10 proves the call always succeeds). -/
def insert (t : Node) (key : List (Fin 256)) (value : List Nat) : Node :=
  let nibbles := from_raw key false
  match insert_at (nibbles.length + t.size + 1) t nibbles value with
  | some t2 => t2
  | none => t

/-- `EthTrie::get_at`. -/
def get_at : Node → List (Fin 16) → Option (List Nat)
  | .null, _ => none
  | .leaf k v, nibbles => if k = nibbles then some v else none
  | .ext p nx, nibbles =>
      if nibbles.length < p.length then none
      else if nibbles.take p.length = p then get_at nx (nibbles.drop p.length)
      else none
  | .branch ch v, nibbles =>
      match nibbles with
      | [] => v
      | n0 :: rest => get_at (ch n0) rest

/-- `EthTrie::get`. -/
def get (t : Node) (key : List (Fin 256)) : Option (List Nat) :=
  get_at t (from_raw key false)

/-- `EthTrie::get_proof_at`: pushes the RLP encoding of every node the
lookup walk visits (including a `Null` child, a mismatching `Leaf`, or a
mismatching `Extension`, which terminate the walk). -/
def get_proof_at : Node → List (Fin 16) → List (List Nat)
  | .null, _ => [Node.rlp_encode .null]
  | .leaf k v, _ => [Node.rlp_encode (.leaf k v)]
  | .ext p nx, nibbles =>
      Node.rlp_encode (.ext p nx) ::
        (if p.length ≤ nibbles.length ∧ nibbles.take p.length = p then
          get_proof_at nx (nibbles.drop p.length)
        else [])
  | .branch ch v, nibbles =>
      Node.rlp_encode (.branch ch v) ::
        (match nibbles with
         | [] => []
         | n0 :: rest => get_proof_at (ch n0) rest)

/-- `EthTrie::get_proof`. -/
def get_proof (t : Node) (key : List (Fin 256)) : List (List Nat) :=
  get_proof_at t (from_raw key false)

/-- Building a trie from a sequence of `insert` calls on `new()`. -/
def buildTrie (l : List (List (Fin 256) × List Nat)) : Node :=
  l.foldl (fun t p => insert t p.1 p.2) Node.null

/-! ### Untrusted node decoder (Decodable impl in src/node.rs)

`verify_proof` decodes attacker-supplied byte strings, so the decoded
node type carries plain `Nat` lists, like the `Vec<u8>` fields the Rust
decoder fills.  The RLP reader mirrors the `rlp` crate operations the
source uses (`is_empty`, `is_list`, `item_count`, `val_at`). -/

/-- Decoded-node type (output of `Node::decode`). -/
inductive DNode where
  | null : DNode
  | leaf (key : List Nat) (value : List Nat) : DNode
  | ext (pfx : List Nat) (next : DNode) : DNode
  | branch (children : Fin 16 → DNode) (value : Option (List Nat)) : DNode

/-- `Node::decode_compact` from src/node.rs (on untrusted bytes). -/
def decode_compact (compact : List Nat) : List Nat :=
  match compact with
  | [] => []
  | first :: rest =>
      (if (first >>> 4) &&& 0x1 ≠ 0 then [first &&& 0x0F] else []) ++
        rest.flatMap fun b => [b >>> 4, b &&& 0x0F]

/-- Big-endian value of a length byte string. -/
def be_val (bs : List Nat) : Nat := bs.foldl (fun acc b => acc * 256 + b) 0

/-- Header length and payload length of the first RLP item of `d`
(the `rlp` crate's `PayloadInfo`). -/
def payload_info (d : List Nat) : Option (Nat × Nat) :=
  match d with
  | [] => none
  | b :: rest =>
    if b < 0x80 then some (0, 1)
    else if b ≤ 0xb7 then some (1, b - 0x80)
    else if b < 0xc0 then
      if rest.length < b - 0xb7 then none
      else some (1 + (b - 0xb7), be_val (rest.take (b - 0xb7)))
    else if b ≤ 0xf7 then some (1, b - 0xc0)
    else
      if rest.length < b - 0xf7 then none
      else some (1 + (b - 0xf7), be_val (rest.take (b - 0xf7)))

/-- Split a list payload into its sub-items (full header + payload runs);
`none` on any overrun, mirroring `item_count`/`val_at` errors. -/
def split_items : Nat → List Nat → Option (List (List Nat))
  | _, [] => some []
  | 0, _ :: _ => none
  | f + 1, d =>
    match payload_info d with
    | none => none
    | some (h, l) =>
      if d.length < h + l then none
      else
        match split_items f (d.drop (h + l)) with
        | none => none
        | some rest => some (d.take (h + l) :: rest)

/-- `val_at`: the payload bytes of one item, which must be a data item
(first byte below 0xc0), not a nested list. -/
def item_data (it : List Nat) : Option (List Nat) :=
  match it with
  | [] => none
  | b :: _ =>
    if 0xc0 ≤ b then none
    else
      match payload_info it with
      | none => none
      | some (h, l) => if it.length < h + l then none else some ((it.drop h).take l)

/-- `rlp::decode::<Node>` from src/node.rs, with fuel for the
recursion into inlined children (each recursive call strictly shrinks the
byte string, so fuel `d.length + 1` always suffices).  Defined through
`Nat.rec` so the recursive reference may appear under the `mapM`
closure that decodes the sixteen Branch children. -/
def dnode_decode (fuel : Nat) : List Nat → Option DNode :=
  Nat.rec (motive := fun _ => List Nat → Option DNode)
    (fun _ => none)
    (fun _ ih d =>
      match d with
      | [] => none
      | b :: _ =>
        if b = 0xc0 ∨ b = 0x80 then some .null
        else if b < 0xc0 then none
        else
          match payload_info d with
          | none => none
          | some (h, l) =>
            if d.length < h + l then none
            else
              match split_items d.length ((d.drop h).take l) with
              | none => none
              | some items =>
                if items.length = 2 then
                  match item_data (items.getD 0 []) with
                  | none => none
                  | some path =>
                    if path = [] then none
                    else if (path.headD 0 >>> 4) &&& 0x2 ≠ 0 then
                      match item_data (items.getD 1 []) with
                      | none => none
                      | some value => some (.leaf (decode_compact path) value)
                    else
                      match item_data (items.getD 1 []) with
                      | none => none
                      | some next_data =>
                        if next_data.length = 32 then
                          some (.ext (decode_compact path) .null)
                        else
                          match ih next_data with
                          | none => none
                          | some nx => some (.ext (decode_compact path) nx)
                else if items.length = 17 then
                  match (items.take 16).mapM (fun it =>
                    match item_data it with
                    | none => none
                    | some cd =>
                      if cd = [] then some DNode.null
                      else if cd.length = 32 then some DNode.null
                      else ih cd) with
                  | none => none
                  | some cs =>
                    match item_data (items.getD 16 []) with
                    | none => none
                    | some vd =>
                      some (.branch (fun i => cs.getD i.val .null)
                        (if vd = [] then none else some vd))
                else none)
    fuel

/-- `EthTrie::verify_proof_recursive`.  The index walk adds one per
step, so fuel `proof.length + 1` (what `verify_proof` passes) always
suffices. -/
def verify_proof_recursive : Nat → List Nat → List (List Nat) → Nat → Option (List Nat)
  | 0, _, _, _ => none
  | fuel + 1, nibbles, proof, proof_index =>
    if proof.length ≤ proof_index then none
    else
      let current := proof.getD proof_index []
      match dnode_decode (current.length + 1) current with
      | none => none
      | some node =>
        match node with
        | .null => none
        | .leaf k v => if k = nibbles then some v else none
        | .ext p _ =>
            if nibbles.length < p.length ∨ nibbles.take p.length ≠ p then none
            else if proof.length ≤ proof_index + 1 then none
            else verify_proof_recursive fuel (nibbles.drop p.length) proof (proof_index + 1)
        | .branch _ v =>
            if nibbles = [] then v
            else if proof.length ≤ proof_index + 1 then none
            else verify_proof_recursive fuel (nibbles.drop 1) proof (proof_index + 1)

/-- `EthTrie::verify_proof`. -/
def verify_proof (root_h : List Nat) (key : List (Fin 256)) (proof : List (List Nat)) :
    Option (List Nat) :=
  if proof = [] then none
  else
    let nibbles := (from_raw key false).map Fin.val
    if compute_hash (proof.headD []) ≠ root_h then none
    else verify_proof_recursive (proof.length + 1) nibbles proof 0

/-! ### Specification-side predicates -/

/-- The value of the most recent insert of `key` in the sequence `l`
(later entries win); `none` when `key` was never inserted. -/
def lookupLast (l : List (List (Fin 256) × List Nat)) (key : List (Fin 256)) :
    Option (List Nat) :=
  match l with
  | [] => none
  | (k0, v0) :: rest =>
    match lookupLast rest key with
    | some v => some v
    | none => if key = k0 then some v0 else none

/-- Nibble-level version of `lookupLast` used internally. -/
def lookupLastNib (l : List (List (Fin 256) × List Nat)) (m : List (Fin 16)) :
    Option (List Nat) :=
  match l with
  | [] => none
  | (k0, v0) :: rest =>
    match lookupLastNib rest m with
    | some v => some v
    | none => if m = from_raw k0 false then some v0 else none

/-- Variant discriminator used by invariant I1. -/
def isBranchNode : Node → Prop
  | .branch _ _ => True
  | _ => False

/-- 1 for an occupied (non-Null) child slot. -/
def nonnull_count : Node → Nat
  | .null => 0
  | _ => 1

/-- Occupancy of a Branch: occupied child slots plus a present value. -/
def occ (ch : Fin 16 → Node) (v : Option (List Nat)) : Nat :=
  (∑ i : Fin 16, nonnull_count (ch i)) + (if v.isSome then 1 else 0)

/-- Canonical-form invariants I1 and I2 of the spec (I4 is structural:
Branch children are indexed by their branching nibble; I3 follows from
I1). -/
def canonical : Node → Prop
  | .null => True
  | .leaf _ _ => True
  | .ext p nx => p ≠ [] ∧ isBranchNode nx ∧ canonical nx
  | .branch ch v => (∀ i, canonical (ch i)) ∧ 2 ≤ occ ch v

/-- Size bound under which the `Nat` model of RLP lengths coincides with
Rust's `usize` arithmetic (any bound below `2 ^ 64` minus slack works). -/
def MAXL : Nat := 2 ^ 60

/-- Every stored value is non-empty (spec §3: an empty value is never
stored) and every stored key, prefix and value fits the machine-size
bound `MAXL` (automatic in Rust, where lengths are `usize`). -/
def entries_ok : Node → Prop
  | .null => True
  | .leaf k v => v ≠ [] ∧ v.length ≤ MAXL ∧ k.length ≤ MAXL
  | .ext p nx => p.length ≤ MAXL ∧ entries_ok nx
  | .branch ch v =>
      (∀ i, entries_ok (ch i)) ∧ ∀ vv, v = some vv → vv ≠ [] ∧ vv.length ≤ MAXL

/-- What `Node::decode` recovers from `rlp::encode(&node)`: nibble keys
come back as plain bytes, any child whose encoding reached 32 bytes was
replaced by its hash and is recorded as a `Null` placeholder, and an
empty Branch value collapses to `None`. -/
def dview : Node → DNode
  | .null => .null
  | .leaf k v => .leaf (k.map Fin.val) v
  | .ext p nx => .ext (p.map Fin.val) (if 32 ≤ nx.rlp_encode.length then .null else dview nx)
  | .branch ch v =>
      .branch (fun i => if 32 ≤ (ch i).rlp_encode.length then .null else dview (ch i))
        (match v with
         | some [] => none
         | x => x)

/-! ### Basic lemmas: common prefixes and nibble bytes -/

theorem cpl_le_left : ∀ a b : List (Fin 16), common_prefix_len a b ≤ a.length
  | [], _ => by simp [common_prefix_len]
  | _ :: _, [] => by simp [common_prefix_len]
  | x :: xs, y :: ys => by
      by_cases h : x = y
      · simpa [common_prefix_len, h] using cpl_le_left xs ys
      · simp [common_prefix_len, h]

theorem cpl_le_right : ∀ a b : List (Fin 16), common_prefix_len a b ≤ b.length
  | [], _ => by simp [common_prefix_len]
  | _ :: _, [] => by simp [common_prefix_len]
  | x :: xs, y :: ys => by
      by_cases h : x = y
      · simpa [common_prefix_len, h] using cpl_le_right xs ys
      · simp [common_prefix_len, h]

theorem cpl_take : ∀ a b : List (Fin 16),
    a.take (common_prefix_len a b) = b.take (common_prefix_len a b)
  | [], b => by simp [common_prefix_len]
  | _ :: _, [] => by simp [common_prefix_len]
  | x :: xs, y :: ys => by
      by_cases h : x = y
      · simp [common_prefix_len, h, cpl_take xs ys]
      · simp [common_prefix_len, h]

theorem cpl_head_ne : ∀ a b : List (Fin 16), ∀ x xs y ys,
    a.drop (common_prefix_len a b) = x :: xs →
    b.drop (common_prefix_len a b) = y :: ys → x ≠ y
  | [], _, x, xs, y, ys => by
      intro ha hb
      simp [common_prefix_len] at ha
  | _ :: _, [], x, xs, y, ys => by
      intro ha hb
      simp [common_prefix_len] at hb
  | a0 :: ta, b0 :: tb, x, xs, y, ys => by
      intro ha hb
      by_cases h : a0 = b0
      · simp only [common_prefix_len, if_pos h] at ha hb
        exact cpl_head_ne ta tb x xs y ys ha hb
      · simp only [common_prefix_len, if_neg h] at ha hb
        simp only [List.drop_zero] at ha hb
        cases ha; cases hb; exact h

theorem cpl_full_left {a b : List (Fin 16)} (h : common_prefix_len a b = a.length) :
    b.take a.length = a := by
  have := cpl_take a b
  rw [h] at this
  simpa using this.symm

theorem cpl_both_full {a b : List (Fin 16)} (h1 : common_prefix_len a b = a.length)
    (h2 : common_prefix_len a b = b.length) : a = b := by
  have hb := cpl_full_left h1
  have hlen : a.length = b.length := by omega
  calc a = b.take a.length := hb.symm
  _ = b := by rw [hlen, List.take_length]

theorem cpl_zero_head {a0 b0 : Fin 16} {ta tb : List (Fin 16)}
    (h : common_prefix_len (a0 :: ta) (b0 :: tb) = 0) : a0 ≠ b0 := by
  intro he
  simp [common_prefix_len, he] at h

theorem nib_pair_hi : ∀ a b : Fin 16, ((a.val <<< 4) ||| b.val) >>> 4 = a.val := by decide

theorem nib_pair_lo : ∀ a b : Fin 16, ((a.val <<< 4) ||| b.val) &&& 0x0F = b.val := by decide

theorem unpack_pack : ∀ l : List (Fin 16), l.length % 2 = 0 →
    (pack_pairs l).flatMap (fun b => [b >>> 4, b &&& 0x0F]) = l.map Fin.val
  | [] => fun _ => rfl
  | [_] => fun h => by simp at h
  | a :: b :: rest => fun h => by
      have hr : rest.length % 2 = 0 := by
        simp only [List.length_cons] at h
        omega
      have ih := unpack_pack rest hr
      simp [pack_pairs, nib_pair_hi, nib_pair_lo, ih]

/-- The leaf-flag test the decoder in src/node.rs performs on the first
byte of a compact path. -/
def compact_is_leaf (compact : List Nat) : Bool :=
  ((compact.headD 0 >>> 4) &&& 0x2) != 0

theorem and_fifteen (x : Nat) : x &&& 15 = x % 16 := by
  have h := Nat.and_pow_two_sub_one_eq_mod x 4
  norm_num at h
  omega

theorem byte_of_nibs : ∀ b1 b2 : Fin 256,
    hiNib b1 = hiNib b2 → loNib b1 = loNib b2 → b1 = b2 := by
  intro b1 b2 h1 h2
  have e1 : b1.val >>> 4 = b2.val >>> 4 := congrArg Fin.val h1
  have e2 : b1.val &&& 15 = b2.val &&& 15 := congrArg Fin.val h2
  rw [and_fifteen, and_fifteen] at e2
  simp only [Nat.shiftRight_eq_div_pow] at e1
  norm_num at e1
  exact Fin.ext (by omega)

theorem from_raw_injective : ∀ a b : List (Fin 256),
    from_raw a false = from_raw b false → a = b
  | [], [] => fun _ => rfl
  | [], _ :: _ => fun h => by simp [from_raw] at h
  | _ :: _, [] => fun h => by simp [from_raw] at h
  | x :: xs, y :: ys => fun h => by
      simp only [from_raw, List.flatMap_cons, List.cons_append, List.nil_append,
        List.cons.injEq] at h
      obtain ⟨h1, h2, h3⟩ := h
      have := from_raw_injective xs ys (by simpa [from_raw] using h3)
      rw [byte_of_nibs x y h1 h2, this]

/-! ### Compact (hex-prefix) encoding round trip -/

theorem leaf_flag_odd : ∀ a : Fin 16, ((48 ||| a.val) >>> 4) &&& 2 = 2 := by decide

theorem ext_flag_odd : ∀ a : Fin 16, ((16 ||| a.val) >>> 4) &&& 2 = 0 := by decide

theorem leaf_odd_bit : ∀ a : Fin 16, ((48 ||| a.val) >>> 4) % 2 = 1 := by decide

theorem ext_odd_bit : ∀ a : Fin 16, ((16 ||| a.val) >>> 4) % 2 = 1 := by decide

theorem leaf_odd_lo : ∀ a : Fin 16, (48 ||| a.val) &&& 15 = a.val := by decide

theorem ext_odd_lo : ∀ a : Fin 16, (16 ||| a.val) &&& 15 = a.val := by decide

theorem decode_encode_compact (n : List (Fin 16)) (f : Bool) :
    decode_compact (encode_compact n f) = n.map Fin.val := by
  by_cases hp : n.length % 2 = 1
  · match n, hp with
    | [], hp => simp at hp
    | n0 :: tl, hp =>
      have hp' : (tl.length + 1) % 2 = 1 := by simpa using hp
      have htl : tl.length % 2 = 0 := by omega
      cases f <;>
        simp [encode_compact, hp', decode_compact, leaf_odd_bit, ext_odd_bit,
          leaf_odd_lo, ext_odd_lo, unpack_pack tl htl]
  · have hp0 : n.length % 2 = 0 := by omega
    cases f <;>
      simp [encode_compact, hp, decode_compact, unpack_pack n hp0]

theorem encode_compact_leaf_flag (n : List (Fin 16)) (f : Bool) :
    compact_is_leaf (encode_compact n f) = f := by
  by_cases hp : n.length % 2 = 1
  · match n, hp with
    | [], hp => simp at hp
    | n0 :: tl, hp =>
      have hp' : (tl.length + 1) % 2 = 1 := by simpa using hp
      cases f <;>
        simp [encode_compact, hp', compact_is_leaf, leaf_flag_odd, ext_flag_odd]
  · cases f <;> simp [encode_compact, hp, compact_is_leaf]

/-! ### Lookup after insertion -/

theorem eq_iff_take_drop {α : Type} (c : Nat) (a b : List α) :
    a = b ↔ a.take c = b.take c ∧ a.drop c = b.drop c := by
  constructor
  · rintro rfl; exact ⟨rfl, rfl⟩
  · rintro ⟨h1, h2⟩
    rw [← List.take_append_drop c a, ← List.take_append_drop c b, h1, h2]

theorem get_at_null (m : List (Fin 16)) : get_at Node.null m = none := rfl

theorem get_at_leaf (k : List (Fin 16)) (v : List Nat) (m : List (Fin 16)) :
    get_at (Node.leaf k v) m = if k = m then some v else none := rfl

theorem get_at_branch_nil (ch : Fin 16 → Node) (v : Option (List Nat)) :
    get_at (Node.branch ch v) [] = v := rfl

theorem get_at_branch_cons (ch : Fin 16 → Node) (v : Option (List Nat)) (m0 : Fin 16)
    (mr : List (Fin 16)) : get_at (Node.branch ch v) (m0 :: mr) = get_at (ch m0) mr := rfl

theorem get_at_ext_pos (p : List (Fin 16)) (nx : Node) (m : List (Fin 16))
    (h : m.take p.length = p) : get_at (Node.ext p nx) m = get_at nx (m.drop p.length) := by
  have hlen : ¬ m.length < p.length := by
    have := congrArg List.length h
    simp [List.length_take] at this
    omega
  simp [get_at, hlen, h]

theorem get_at_ext_neg (p : List (Fin 16)) (nx : Node) (m : List (Fin 16))
    (h : m.take p.length ≠ p) : get_at (Node.ext p nx) m = none := by
  by_cases hlen : m.length < p.length
  · simp [get_at, hlen]
  · simp [get_at, hlen, h]

/-- The `if common_len > 0 { Extension } else { plain Branch }` wrapping
after a split is transparent to lookups, because a split with
`common_len = 0` has an empty shared prefix. -/
theorem get_at_wrap (c : Nat) (sh : List (Fin 16)) (hsh : c = 0 → sh = []) (br : Node)
    (m : List (Fin 16)) :
    get_at (if 0 < c then Node.ext sh br else br) m = get_at (Node.ext sh br) m := by
  by_cases hc : 0 < c
  · simp [hc]
  · have h0 : sh = [] := hsh (by omega)
    subst h0
    simp [hc, get_at]

theorem take_ne_imp_ne {α : Type} {c : Nat} {a b : List α} (h : a.take c ≠ b.take c) :
    a ≠ b := fun he => h (he ▸ rfl)

theorem drop_ne_imp_ne {α : Type} {c : Nat} {a b : List α} (h : a.drop c ≠ b.drop c) :
    a ≠ b := fun he => h (he ▸ rfl)

theorem eq_append_of_take {α : Type} {c : Nat} {m sh : List α} (h : m.take c = sh) :
    m = sh ++ m.drop c := by
  conv_lhs => rw [← List.take_append_drop c m]
  rw [h]

theorem take_prefix_trans {m p : List (Fin 16)} {c : Nat} (hc : c ≤ p.length)
    (h : m.take p.length = p) : m.take c = p.take c := by
  rw [← h, List.take_take, min_eq_left hc]

theorem drop_of_take_eq {m p : List (Fin 16)} {c : Nat} (h : m.take p.length = p)
    (_hc : c ≤ p.length) : (m.drop c).take (p.length - c) = p.drop c := by
  conv_rhs => rw [← h]
  rw [List.drop_take]

theorem take_len_of_take {α : Type} {m sh : List α} {c : Nat} (h : m.take c = sh)
    (hlen : sh.length = c) : c ≤ m.length := by
  have := congrArg List.length h
  simp [List.length_take] at this
  omega

theorem get_at_ext_append (u p2 : List (Fin 16)) (nx : Node) (mr : List (Fin 16)) :
    get_at (Node.ext (u ++ p2) nx) (u ++ mr) = get_at (Node.ext p2 nx) mr := by
  have htake : (u ++ mr).take (u.length + p2.length) = u ++ mr.take p2.length :=
    List.take_append p2.length
  have hdrop : (u ++ mr).drop (u.length + p2.length) = mr.drop p2.length :=
    List.drop_append p2.length
  by_cases h2 : mr.take p2.length = p2
  · rw [get_at_ext_pos _ _ _ (by rw [List.length_append, htake, h2]),
      get_at_ext_pos _ _ _ h2, List.length_append, hdrop]
  · rw [get_at_ext_neg _ _ _ (by
      rw [List.length_append, htake]
      intro he
      exact h2 (List.append_cancel_left he)), get_at_ext_neg _ _ _ h2]

/-- Lookup after insertion below a Branch node. -/
theorem get_insert_branch (f : Nat)
    (ih : ∀ t n v t2, insert_at f t n v = some t2 →
      ∀ m, get_at t2 m = if m = n then some v else get_at t m)
    (ch : Fin 16 → Node) (bv : Option (List Nat)) (n : List (Fin 16)) (v : List Nat)
    (t2 : Node) (h : insert_at (f + 1) (.branch ch bv) n v = some t2) (m : List (Fin 16)) :
    get_at t2 m = if m = n then some v else get_at (.branch ch bv) m := by
  cases n with
  | nil =>
    simp only [insert_at, Option.some.injEq] at h
    subst h
    cases m with
    | nil => simp [get_at_branch_nil]
    | cons m0 mr => simp [get_at_branch_cons]
  | cons n0 nrest =>
    simp only [insert_at] at h
    cases hrec : insert_at f (ch n0) nrest v with
    | none => rw [hrec] at h; simp at h
    | some cn =>
      rw [hrec] at h
      simp only [Option.some.injEq] at h
      subst h
      have hcn := ih _ _ _ _ hrec
      cases m with
      | nil => simp [get_at_branch_nil]
      | cons m0 mr =>
        by_cases hm0 : m0 = n0
        · subst hm0
          rw [get_at_branch_cons, Function.update_same, hcn mr, get_at_branch_cons]
          by_cases hmr : mr = nrest
          · simp [hmr]
          · simp [hmr]
        · rw [get_at_branch_cons, Function.update_noteq hm0, get_at_branch_cons]
          simp [hm0]

theorem get_at_ext_nil_pfx (nx : Node) (m : List (Fin 16)) :
    get_at (Node.ext [] nx) m = get_at nx m := by
  simp [get_at]

theorem get_at_ext_cons (a : Fin 16) (p2 : List (Fin 16)) (nx : Node) (dr : List (Fin 16)) :
    get_at (Node.ext (a :: p2) nx) (a :: dr) = get_at (Node.ext p2 nx) dr :=
  get_at_ext_append [a] p2 nx dr

/-- Lookup after insertion below an Extension node. -/
theorem get_insert_ext (f : Nat)
    (ih : ∀ t n v t2, insert_at f t n v = some t2 →
      ∀ m, get_at t2 m = if m = n then some v else get_at t m)
    (p : List (Fin 16)) (nx : Node) (n : List (Fin 16)) (v : List Nat)
    (t2 : Node) (h : insert_at (f + 1) (.ext p nx) n v = some t2) (m : List (Fin 16)) :
    get_at t2 m = if m = n then some v else get_at (.ext p nx) m := by
  simp only [insert_at] at h
  by_cases hcp : common_prefix_len p n = p.length
  · rw [if_pos hcp] at h
    cases hrec : insert_at f nx (n.drop (common_prefix_len p n)) v with
    | none => rw [hrec] at h; simp at h
    | some nx2 =>
      rw [hrec] at h
      simp only [Option.some.injEq] at h
      subst h
      have hcn := ih _ _ _ _ hrec
      rw [hcp] at hcn
      have hpn : n.take p.length = p := cpl_full_left hcp
      by_cases hmp : m.take p.length = p
      · rw [get_at_ext_pos _ _ _ hmp, get_at_ext_pos _ _ _ hmp, hcn]
        by_cases hmd : m.drop p.length = n.drop p.length
        · rw [if_pos hmd, if_pos]
          rw [eq_iff_take_drop p.length m n]
          exact ⟨hmp.trans hpn.symm, hmd⟩
        · rw [if_neg hmd, if_neg]
          exact drop_ne_imp_ne hmd
      · rw [get_at_ext_neg _ _ _ hmp, get_at_ext_neg _ _ _ hmp, if_neg]
        intro he
        subst he
        exact hmp hpn
  · rw [if_neg hcp] at h
    have hcl : common_prefix_len p n ≤ p.length := cpl_le_left p n
    have hcr : common_prefix_len p n ≤ n.length := cpl_le_right p n
    have hclt : common_prefix_len p n < p.length := lt_of_le_of_ne hcl hcp
    have htakes : p.take (common_prefix_len p n) = n.take (common_prefix_len p n) :=
      cpl_take p n
    set c := common_prefix_len p n with hcdef
    have hshlen : (p.take c).length = c := by
      rw [List.length_take]
      omega
    have hwrap0 : c = 0 → p.take c = [] := by
      intro h0
      rw [h0]
      rfl
    cases hpd : p.drop c with
    | nil =>
      rw [List.drop_eq_nil_iff] at hpd
      omega
    | cons er0 erest =>
      rw [hpd] at h
      have hp_eq : p = p.take c ++ er0 :: erest := by
        rw [← hpd]
        exact (List.take_append_drop c p).symm
      cases hnd : n.drop c with
      | nil =>
        rw [hnd] at h
        simp only [Option.some.injEq] at h
        subst h
        have hceq : c = n.length := by
          rw [List.drop_eq_nil_iff] at hnd
          omega
        have hn_eq : n = p.take c := by
          rw [htakes, hceq, List.take_length]
        rw [get_at_wrap c (p.take c) hwrap0]
        by_cases hmt : m.take c = p.take c
        · have hmt' : m.take (p.take c).length = p.take c := by rw [hshlen]; exact hmt
          rw [get_at_ext_pos _ _ _ hmt', hshlen]
          cases hmd : m.drop c with
          | nil =>
            have hmn : m = n := by
              rw [eq_iff_take_drop c m n]
              refine ⟨hmt.trans ?_, ?_⟩
              · rw [htakes]
              · rw [hmd, hnd]
            rw [if_pos hmn]
            rfl
          | cons d0 dr =>
            have hmn : m ≠ n := by
              apply drop_ne_imp_ne (c := c)
              rw [hmd, hnd]
              simp
            rw [if_neg hmn, get_at_branch_cons]
            by_cases hd0 : d0 = er0
            · subst hd0
              rw [Function.update_same]
              have hm_eq : m = p.take c ++ d0 :: dr := by
                have hx := eq_append_of_take hmt
                rw [hmd] at hx
                exact hx
              have key : get_at (Node.ext p nx) m = get_at (Node.ext erest nx) dr := by
                conv_lhs => rw [hp_eq, hm_eq]
                rw [get_at_ext_append, get_at_ext_cons]
              rw [key]
              by_cases he : erest = []
              · subst he
                rw [if_pos rfl, get_at_ext_nil_pfx]
              · rw [if_neg he]
            · rw [Function.update_noteq hd0]
              rw [show get_at (empty16 d0) dr = none from rfl]
              have hpm : m.take p.length ≠ p := by
                intro hcon
                have := drop_of_take_eq hcon (le_of_lt hclt)
                rw [hmd, hpd] at this
                have hlen1 : 1 ≤ p.length - c := by omega
                rw [show p.length - c = (p.length - c - 1) + 1 by omega] at this
                simp only [List.take_succ_cons] at this
                exact hd0 (List.head_eq_of_cons_eq this)
              rw [get_at_ext_neg _ _ _ hpm]
        · have hmn : m ≠ n := by
            intro he
            apply hmt
            rw [he, hn_eq, List.take_take, min_self]
          have hpm : m.take p.length ≠ p := by
            intro hcon
            exact hmt (take_prefix_trans hcl hcon)
          have hmt2 : m.take (p.take c).length ≠ p.take c := by
            rw [hshlen]
            exact hmt
          rw [get_at_ext_neg _ _ _ hmt2, get_at_ext_neg _ _ _ hpm, if_neg hmn]
      | cons nr0 nrest =>
        rw [hnd] at h
        simp only [Option.some.injEq] at h
        subst h
        have hern : er0 ≠ nr0 := cpl_head_ne p n er0 erest nr0 nrest hpd hnd
        rw [get_at_wrap c (p.take c) hwrap0]
        by_cases hmt : m.take c = p.take c
        · have hmt' : m.take (p.take c).length = p.take c := by rw [hshlen]; exact hmt
          rw [get_at_ext_pos _ _ _ hmt', hshlen]
          cases hmd : m.drop c with
          | nil =>
            have hmn : m ≠ n := by
              apply drop_ne_imp_ne (c := c)
              rw [hmd, hnd]
              simp
            rw [if_neg hmn, get_at_branch_nil]
            have hmlen : m.length ≤ c := by
              rw [← List.drop_eq_nil_iff, hmd]
            have hpm : m.take p.length ≠ p := by
              intro hcon
              have h1 := congrArg List.length hcon
              rw [List.length_take] at h1
              omega
            rw [get_at_ext_neg _ _ _ hpm]
          | cons d0 dr =>
            rw [get_at_branch_cons]
            by_cases hd0n : d0 = nr0
            · subst hd0n
              rw [Function.update_same, get_at_leaf]
              by_cases hdr : dr = nrest
              · subst hdr
                have hmn : m = n := by
                  rw [eq_iff_take_drop c m n]
                  exact ⟨hmt.trans htakes, by rw [hmd, hnd]⟩
                rw [if_pos hmn, if_pos rfl]
              · have hmn : m ≠ n := by
                  apply drop_ne_imp_ne (c := c)
                  rw [hmd, hnd]
                  simp [hdr]
                rw [if_neg hmn, if_neg (by intro hcon; exact hdr hcon.symm)]
                have hpm : m.take p.length ≠ p := by
                  intro hcon
                  have := drop_of_take_eq hcon (le_of_lt hclt)
                  rw [hmd, hpd] at this
                  rw [show p.length - c = (p.length - c - 1) + 1 by omega] at this
                  simp only [List.take_succ_cons] at this
                  exact hern (List.head_eq_of_cons_eq this).symm
                rw [get_at_ext_neg _ _ _ hpm]
            · rw [Function.update_noteq hd0n]
              have hmn : m ≠ n := by
                apply drop_ne_imp_ne (c := c)
                rw [hmd, hnd]
                simp [hd0n]
              rw [if_neg hmn]
              by_cases hd0 : d0 = er0
              · subst hd0
                rw [Function.update_same]
                have hm_eq : m = p.take c ++ d0 :: dr := by
                  have hx := eq_append_of_take hmt
                  rw [hmd] at hx
                  exact hx
                have key : get_at (Node.ext p nx) m = get_at (Node.ext erest nx) dr := by
                  conv_lhs => rw [hp_eq, hm_eq]
                  rw [get_at_ext_append, get_at_ext_cons]
                rw [key]
                by_cases he : erest = []
                · subst he
                  rw [if_pos rfl, get_at_ext_nil_pfx]
                · rw [if_neg he]
              · rw [Function.update_noteq hd0]
                rw [show get_at (empty16 d0) dr = none from rfl]
                have hpm : m.take p.length ≠ p := by
                  intro hcon
                  have := drop_of_take_eq hcon (le_of_lt hclt)
                  rw [hmd, hpd] at this
                  rw [show p.length - c = (p.length - c - 1) + 1 by omega] at this
                  simp only [List.take_succ_cons] at this
                  exact hd0 (List.head_eq_of_cons_eq this)
                rw [get_at_ext_neg _ _ _ hpm]
        · have hmn : m ≠ n := by
            apply take_ne_imp_ne (c := c)
            rw [← htakes]
            exact hmt
          have hpm : m.take p.length ≠ p := by
            intro hcon
            exact hmt (take_prefix_trans hcl hcon)
          have hmt2 : m.take (p.take c).length ≠ p.take c := by
            rw [hshlen]
            exact hmt
          rw [get_at_ext_neg _ _ _ hmt2, get_at_ext_neg _ _ _ hpm, if_neg hmn]

/-- Lookup after insertion below a Leaf node. -/
theorem get_insert_leaf (f : Nat)
    (ih : ∀ t n v t2, insert_at f t n v = some t2 →
      ∀ m, get_at t2 m = if m = n then some v else get_at t m)
    (lk : List (Fin 16)) (lv : List Nat) (n : List (Fin 16)) (v : List Nat)
    (t2 : Node) (h : insert_at (f + 1) (.leaf lk lv) n v = some t2) (m : List (Fin 16)) :
    get_at t2 m = if m = n then some v else get_at (.leaf lk lv) m := by
  simp only [insert_at] at h
  by_cases hboth : common_prefix_len lk n = lk.length ∧ common_prefix_len lk n = n.length
  · rw [if_pos hboth] at h
    simp only [Option.some.injEq] at h
    subst h
    have hlkn : lk = n := cpl_both_full hboth.1 hboth.2
    subst hlkn
    by_cases hm : m = lk
    · subst hm
      rw [get_at_leaf, if_pos rfl, if_pos rfl]
    · simp [get_at_leaf, hm, Ne.symm hm]
  · rw [if_neg hboth] at h
    have hcl : common_prefix_len lk n ≤ lk.length := cpl_le_left lk n
    have hcr : common_prefix_len lk n ≤ n.length := cpl_le_right lk n
    have htakes : lk.take (common_prefix_len lk n) = n.take (common_prefix_len lk n) :=
      cpl_take lk n
    by_cases hc0 : common_prefix_len lk n = 0
    · rw [if_pos hc0] at h
      cases lk with
      | nil =>
        cases n with
        | nil => simp at h
        | cons n0 nrest =>
          simp only [Option.some.injEq] at h
          subst h
          cases m with
          | nil =>
            rw [get_at_branch_nil, if_neg (by simp), get_at_leaf, if_pos rfl]
          | cons m0 mr =>
            rw [get_at_branch_cons]
            by_cases hm0 : m0 = n0
            · subst hm0
              rw [Function.update_same, get_at_leaf]
              by_cases hmr : mr = nrest
              · subst hmr
                rw [if_pos rfl, if_pos rfl]
              · rw [if_neg (fun hcon => hmr hcon.symm), if_neg (by simp [hmr]),
                  get_at_leaf, if_neg (by simp)]
            · rw [show Function.update empty16 n0 (Node.leaf nrest v) m0 = Node.null from
                Function.update_noteq hm0 _ _, get_at_null, if_neg (by simp [hm0]),
                get_at_leaf, if_neg (by simp)]
      | cons lk0 lkrest =>
        cases n with
        | nil =>
          simp only [Option.some.injEq] at h
          subst h
          cases m with
          | nil => rw [get_at_branch_nil, if_pos rfl]
          | cons m0 mr =>
            rw [get_at_branch_cons, if_neg (by simp)]
            by_cases hm0 : m0 = lk0
            · subst hm0
              rw [Function.update_same, get_at_leaf, get_at_leaf]
              by_cases hmr : mr = lkrest
              · subst hmr
                rw [if_pos rfl, if_pos rfl]
              · rw [if_neg (fun hcon => hmr hcon.symm), if_neg (by
                  intro hcon
                  exact hmr (List.tail_eq_of_cons_eq hcon).symm)]
            · rw [show Function.update empty16 lk0 (Node.leaf lkrest lv) m0 = Node.null from
                Function.update_noteq hm0 _ _, get_at_null, get_at_leaf,
                if_neg (fun hcon => hm0 (List.head_eq_of_cons_eq hcon).symm)]
        | cons n0 nrest =>
          have hne : lk0 ≠ n0 := cpl_zero_head hc0
          simp only [Option.some.injEq] at h
          cases hrec : insert_at f (Function.update empty16 lk0 (Node.leaf lkrest lv) n0)
              nrest v with
          | none => rw [hrec] at h; simp at h
          | some cn =>
            rw [hrec] at h
            simp only [Option.some.injEq] at h
            subst h
            have hcn := ih _ _ _ _ hrec
            have hch1 : Function.update empty16 lk0 (Node.leaf lkrest lv) n0 = Node.null :=
              Function.update_noteq (fun hcon => hne hcon.symm) _ _
            cases m with
            | nil =>
              rw [get_at_branch_nil, if_neg (by simp), get_at_leaf, if_neg (by simp)]
            | cons m0 mr =>
              rw [get_at_branch_cons]
              by_cases hm0 : m0 = n0
              · subst hm0
                rw [Function.update_same, hcn mr, hch1, get_at_null]
                by_cases hmr : mr = nrest
                · subst hmr
                  rw [if_pos rfl, if_pos rfl]
                · rw [if_neg hmr, if_neg (by simp [hmr]), get_at_leaf,
                    if_neg (fun hcon => hne (List.head_eq_of_cons_eq hcon))]
              · rw [Function.update_noteq hm0]
                have hmnn : ¬ (m0 :: mr = n0 :: nrest) :=
                  fun hcon => hm0 (List.head_eq_of_cons_eq hcon)
                by_cases hml : m0 = lk0
                · subst hml
                  rw [Function.update_same, get_at_leaf, if_neg hmnn, get_at_leaf]
                  by_cases hmr2 : lkrest = mr
                  · rw [if_pos hmr2, if_pos (by rw [hmr2])]
                  · rw [if_neg hmr2, if_neg (by
                      intro hcon
                      exact hmr2 (List.tail_eq_of_cons_eq hcon))]
                · rw [show Function.update empty16 lk0 (Node.leaf lkrest lv) m0 = Node.null from
                    Function.update_noteq hml _ _, get_at_null, if_neg hmnn,
                    get_at_leaf, if_neg (fun hcon => hml (List.head_eq_of_cons_eq hcon).symm)]
    · rw [if_neg hc0] at h
      have hcpos : 0 < common_prefix_len lk n := Nat.pos_of_ne_zero hc0
      set c := common_prefix_len lk n with hcdef
      have hshlen : (n.take c).length = c := by
        rw [List.length_take]
        omega
      have hwrap0 : c = 0 → n.take c = [] := fun h0 => absurd h0 (by omega)
      cases hld : lk.drop c with
      | nil =>
        have hceql : c = lk.length := by
          rw [List.drop_eq_nil_iff] at hld
          omega
        have hlk_eq : lk = n.take c := by
          rw [← htakes, hceql, List.take_length]
        cases hnd : n.drop c with
        | nil =>
          have hceqn : n.length ≤ c := List.drop_eq_nil_iff.mp hnd
          exact absurd ⟨by omega, by omega⟩ hboth
        | cons nr0 nrest =>
          rw [hld, hnd] at h
          simp only [Option.some.injEq] at h
          subst h
          rw [get_at_wrap c (n.take c) hwrap0]
          by_cases hmt : m.take c = n.take c
          · rw [get_at_ext_pos _ _ _ (by rw [hshlen]; exact hmt), hshlen]
            cases hmd : m.drop c with
            | nil =>
              have hmlk : m = lk := by
                have hx := eq_append_of_take hmt
                rw [hmd] at hx
                rw [hlk_eq]
                simpa using hx
              have hmn : m ≠ n := by
                apply drop_ne_imp_ne (c := c)
                rw [hmd, hnd]
                simp
              rw [get_at_branch_nil, if_neg hmn, get_at_leaf, if_pos hmlk.symm]
            | cons d0 dr =>
              rw [get_at_branch_cons]
              have hmlk : lk ≠ m := by
                intro hcon
                rw [hcon] at hld
                rw [hmd] at hld
                simp at hld
              by_cases hd0 : d0 = nr0
              · subst hd0
                rw [Function.update_same, get_at_leaf]
                by_cases hdr : dr = nrest
                · subst hdr
                  have hmn : m = n := by
                    rw [eq_iff_take_drop c m n]
                    exact ⟨hmt, by rw [hmd, hnd]⟩
                  rw [if_pos hmn, if_pos rfl]
                · have hmn : m ≠ n := by
                    apply drop_ne_imp_ne (c := c)
                    rw [hmd, hnd]
                    simp [hdr]
                  rw [if_neg (fun hcon => hdr hcon.symm), if_neg hmn, get_at_leaf,
                    if_neg hmlk]
              · rw [show Function.update empty16 nr0 (Node.leaf nrest v) d0 = Node.null from
                  Function.update_noteq hd0 _ _, get_at_null]
                have hmn : m ≠ n := by
                  apply drop_ne_imp_ne (c := c)
                  rw [hmd, hnd]
                  simp [hd0]
                rw [if_neg hmn, get_at_leaf, if_neg hmlk]
          · have hmn : m ≠ n := fun he => hmt (by rw [he])
            have hmlk : lk ≠ m := by
              intro hcon
              apply hmt
              rw [← hcon]
              exact htakes
            rw [get_at_ext_neg _ _ _ (by rw [hshlen]; exact hmt), if_neg hmn, get_at_leaf,
              if_neg hmlk]
      | cons lr0 lrest =>
        have hlklt : c < lk.length := by
          rcases Nat.lt_or_ge c lk.length with h1 | h1
          · exact h1
          · have hx : lk.drop c = [] := List.drop_eq_nil_iff.mpr h1
            rw [hld] at hx
            simp at hx
        have hlk_eq2 : lk = n.take c ++ lr0 :: lrest := by
          conv_lhs => rw [← List.take_append_drop c lk]
          rw [htakes, hld]
        cases hnd : n.drop c with
        | nil =>
          have hceqn : c = n.length := by
            have := List.drop_eq_nil_iff.mp hnd
            omega
          have hn_eq : n = n.take c := by
            rw [hceqn, List.take_length]
          rw [hld, hnd] at h
          simp only [Option.some.injEq] at h
          subst h
          rw [get_at_wrap c (n.take c) hwrap0]
          by_cases hmt : m.take c = n.take c
          · rw [get_at_ext_pos _ _ _ (by rw [hshlen]; exact hmt), hshlen]
            cases hmd : m.drop c with
            | nil =>
              have hmn : m = n := by
                have hx := eq_append_of_take hmt
                rw [hmd] at hx
                rw [← hn_eq] at hx
                simpa using hx
              rw [get_at_branch_nil, if_pos hmn]
            | cons d0 dr =>
              have hmn : m ≠ n := by
                apply drop_ne_imp_ne (c := c)
                rw [hmd, hnd]
                simp
              rw [get_at_branch_cons, if_neg hmn]
              by_cases hd0 : d0 = lr0
              · subst hd0
                rw [Function.update_same, get_at_leaf, get_at_leaf]
                have hm_eq : m = n.take c ++ d0 :: dr := by
                  have hx := eq_append_of_take hmt
                  rw [hmd] at hx
                  exact hx
                by_cases hdr : lrest = dr
                · rw [if_pos hdr, if_pos (by rw [hlk_eq2, hm_eq, hdr])]
                · rw [if_neg hdr, if_neg (by
                    rw [hlk_eq2, hm_eq]
                    intro hcon
                    exact hdr (List.tail_eq_of_cons_eq (List.append_cancel_left hcon)))]
              · rw [show Function.update empty16 lr0 (Node.leaf lrest lv) d0 = Node.null from
                  Function.update_noteq hd0 _ _, get_at_null, get_at_leaf]
                rw [if_neg (by
                  intro hcon
                  rw [hcon] at hld
                  rw [hmd] at hld
                  exact hd0 (List.head_eq_of_cons_eq hld))]
          · have hmn : m ≠ n := fun he => hmt (by rw [he])
            have hmlk : lk ≠ m := by
              intro hcon
              apply hmt
              rw [← hcon]
              exact htakes
            rw [get_at_ext_neg _ _ _ (by rw [hshlen]; exact hmt), if_neg hmn, get_at_leaf,
              if_neg hmlk]
        | cons nr0 nrest =>
          have hlrnr : lr0 ≠ nr0 := cpl_head_ne lk n lr0 lrest nr0 nrest hld hnd
          rw [hld, hnd] at h
          simp only [Option.some.injEq] at h
          subst h
          rw [get_at_wrap c (n.take c) hwrap0]
          by_cases hmt : m.take c = n.take c
          · rw [get_at_ext_pos _ _ _ (by rw [hshlen]; exact hmt), hshlen]
            cases hmd : m.drop c with
            | nil =>
              have hmn : m ≠ n := by
                apply drop_ne_imp_ne (c := c)
                rw [hmd, hnd]
                simp
              have hmlk : lk ≠ m := by
                intro hcon
                rw [hcon] at hld
                rw [hmd] at hld
                simp at hld
              rw [get_at_branch_nil, if_neg hmn, get_at_leaf, if_neg hmlk]
            | cons d0 dr =>
              rw [get_at_branch_cons]
              by_cases hd0n : d0 = nr0
              · subst hd0n
                rw [Function.update_same, get_at_leaf]
                by_cases hdr : dr = nrest
                · subst hdr
                  have hmn : m = n := by
                    rw [eq_iff_take_drop c m n]
                    exact ⟨hmt, by rw [hmd, hnd]⟩
                  rw [if_pos hmn, if_pos rfl]
                · have hmn : m ≠ n := by
                    apply drop_ne_imp_ne (c := c)
                    rw [hmd, hnd]
                    simp [hdr]
                  rw [if_neg (fun hcon => hdr hcon.symm), if_neg hmn, get_at_leaf]
                  rw [if_neg (by
                    intro hcon
                    rw [hcon] at hld
                    rw [hmd] at hld
                    exact hlrnr (List.head_eq_of_cons_eq hld).symm)]
              · rw [Function.update_noteq hd0n]
                have hmn : m ≠ n := by
                  apply drop_ne_imp_ne (c := c)
                  rw [hmd, hnd]
                  simp [hd0n]
                rw [if_neg hmn]
                by_cases hd0l : d0 = lr0
                · subst hd0l
                  rw [Function.update_same, get_at_leaf, get_at_leaf]
                  have hm_eq : m = n.take c ++ d0 :: dr := by
                    have hx := eq_append_of_take hmt
                    rw [hmd] at hx
                    exact hx
                  by_cases hdr : lrest = dr
                  · rw [if_pos hdr, if_pos (by rw [hlk_eq2, hm_eq, hdr])]
                  · rw [if_neg hdr, if_neg (by
                      rw [hlk_eq2, hm_eq]
                      intro hcon
                      exact hdr (List.tail_eq_of_cons_eq (List.append_cancel_left hcon)))]
                · rw [show Function.update empty16 lr0 (Node.leaf lrest lv) d0 = Node.null from
                    Function.update_noteq hd0l _ _, get_at_null, get_at_leaf]
                  rw [if_neg (by
                    intro hcon
                    rw [hcon] at hld
                    rw [hmd] at hld
                    exact hd0l (List.head_eq_of_cons_eq hld))]
          · have hmn : m ≠ n := fun he => hmt (by rw [he])
            have hmlk : lk ≠ m := by
              intro hcon
              apply hmt
              rw [← hcon]
              exact htakes
            rw [get_at_ext_neg _ _ _ (by rw [hshlen]; exact hmt), if_neg hmn, get_at_leaf,
              if_neg hmlk]

/-- Lookup after insertion: `insert_at` overwrites exactly the inserted
key and leaves every other lookup unchanged. -/
theorem get_insert_at : ∀ (f : Nat) (t : Node) (n : List (Fin 16)) (v : List Nat) (t2 : Node),
    insert_at f t n v = some t2 →
    ∀ m, get_at t2 m = if m = n then some v else get_at t m := by
  intro f
  induction f with
  | zero =>
    intro t n v t2 h m
    simp [insert_at] at h
  | succ f ih =>
    intro t n v t2 h m
    cases t with
    | null =>
      simp only [insert_at, Option.some.injEq] at h
      subst h
      by_cases hm : m = n
      · subst hm
        rw [get_at_leaf, if_pos rfl, if_pos rfl]
      · simp [get_at_leaf, get_at_null, hm, Ne.symm hm]
    | leaf lk lv => exact get_insert_leaf f ih lk lv n v t2 h m
    | ext p nx => exact get_insert_ext f ih p nx n v t2 h m
    | branch ch bv => exact get_insert_branch f ih ch bv n v t2 h m

/-! ### Totality of insertion -/

theorem node_size_pos : ∀ t : Node, 0 < t.size := by
  intro t
  cases t <;> simp [Node.size]

theorem size_child_le (ch : Fin 16 → Node) (i : Fin 16) :
    (ch i).size ≤ ((List.finRange 16).map fun j => (ch j).size).sum := by
  apply List.single_le_sum (fun x _ => Nat.zero_le x)
  exact List.mem_map_of_mem _ (List.mem_finRange i)

/-- `insert_at` succeeds whenever the fuel exceeds
`nibbles.length + node.size`, the measure every recursive call strictly
decreases. -/
theorem insert_at_total : ∀ (f : Nat) (t : Node) (n : List (Fin 16)) (v : List Nat),
    n.length + t.size < f → (insert_at f t n v).isSome = true := by
  intro f
  induction f with
  | zero =>
    intro t n v h
    omega
  | succ f ih =>
    intro t n v h
    cases t with
    | null => simp [insert_at]
    | leaf lk lv =>
      simp only [insert_at]
      by_cases hboth : common_prefix_len lk n = lk.length ∧ common_prefix_len lk n = n.length
      · rw [if_pos hboth]
        simp
      · rw [if_neg hboth]
        by_cases hc0 : common_prefix_len lk n = 0
        · rw [if_pos hc0]
          cases lk with
          | nil =>
            cases n with
            | nil =>
              exact absurd ⟨hc0, hc0⟩ hboth
            | cons n0 nrest => simp
          | cons lk0 lkrest =>
            cases n with
            | nil => simp
            | cons n0 nrest =>
              have hne : lk0 ≠ n0 := cpl_zero_head hc0
              have hrec : (insert_at f (Function.update empty16 lk0 (Node.leaf lkrest lv) n0)
                  nrest v).isSome = true := by
                apply ih
                rw [show Function.update empty16 lk0 (Node.leaf lkrest lv) n0 = Node.null from
                  Function.update_noteq (fun hcon => hne hcon.symm) _ _]
                simp only [List.length_cons, Node.size] at h
                simp only [Node.size]
                omega
              obtain ⟨cn, hcn⟩ := Option.isSome_iff_exists.mp hrec
              simp [hcn]
        · rw [if_neg hc0]
          have hcl : common_prefix_len lk n ≤ lk.length := cpl_le_left lk n
          cases hld : lk.drop (common_prefix_len lk n) with
          | nil =>
            cases hnd : n.drop (common_prefix_len lk n) with
            | nil =>
              have h1 := List.drop_eq_nil_iff.mp hld
              have h2 := List.drop_eq_nil_iff.mp hnd
              have hcr := cpl_le_right lk n
              exact absurd ⟨by omega, by omega⟩ hboth
            | cons nr0 nrest => simp
          | cons lr0 lrest =>
            cases hnd : n.drop (common_prefix_len lk n) with
            | nil => simp
            | cons nr0 nrest => simp
    | ext p nx =>
      simp only [insert_at]
      by_cases hcp : common_prefix_len p n = p.length
      · rw [if_pos hcp]
        have hrec : (insert_at f nx (n.drop (common_prefix_len p n)) v).isSome = true := by
          apply ih
          have hdl : (n.drop (common_prefix_len p n)).length ≤ n.length := by
            rw [List.length_drop]
            omega
          simp only [Node.size] at h
          omega
        obtain ⟨nx2, hnx2⟩ := Option.isSome_iff_exists.mp hrec
        simp [hnx2]
      · rw [if_neg hcp]
        have hcl : common_prefix_len p n ≤ p.length := cpl_le_left p n
        cases hpd : p.drop (common_prefix_len p n) with
        | nil =>
          have h1 := List.drop_eq_nil_iff.mp hpd
          omega
        | cons er0 erest =>
          cases hnd : n.drop (common_prefix_len p n) with
          | nil => simp
          | cons nr0 nrest => simp
    | branch ch bv =>
      simp only [insert_at]
      cases n with
      | nil => simp
      | cons n0 nrest =>
        have hrec : (insert_at f (ch n0) nrest v).isSome = true := by
          apply ih
          have hle := size_child_le ch n0
          simp only [List.length_cons, Node.size] at h
          omega
        obtain ⟨cn, hcn⟩ := Option.isSome_iff_exists.mp hrec
        simp [hcn]

/-- The public `insert` always takes the `some` branch. -/
theorem insert_eq_insert_at (t : Node) (k : List (Fin 256)) (v : List Nat) :
    insert_at ((from_raw k false).length + t.size + 1) t (from_raw k false) v =
      some (insert t k v) := by
  have h := insert_at_total ((from_raw k false).length + t.size + 1) t (from_raw k false) v
    (by omega)
  obtain ⟨t2, ht2⟩ := Option.isSome_iff_exists.mp h
  rw [ht2]
  have hx : insert t k v = t2 := by
    show (match insert_at ((from_raw k false).length + t.size + 1) t (from_raw k false) v with
          | some x => x
          | none => t) = t2
    rw [ht2]
  rw [hx]

theorem get_at_insert (t : Node) (k : List (Fin 256)) (v : List Nat) (m : List (Fin 16)) :
    get_at (insert t k v) m = if m = from_raw k false then some v else get_at t m :=
  get_insert_at _ _ _ _ _ (insert_eq_insert_at t k v) m

theorem insert_at_ne_null {f : Nat} {t : Node} {n : List (Fin 16)} {v : List Nat} {t2 : Node}
    (h : insert_at f t n v = some t2) : t2 ≠ Node.null := by
  intro he
  have hx := get_insert_at f t n v t2 h n
  rw [if_pos rfl, he, get_at_null] at hx
  simp at hx

theorem insert_ne_null (t : Node) (k : List (Fin 256)) (v : List Nat) :
    insert t k v ≠ Node.null :=
  insert_at_ne_null (insert_eq_insert_at t k v)

theorem get_at_buildTrie_aux :
    ∀ (l : List (List (Fin 256) × List Nat)) (t : Node) (m : List (Fin 16)),
    get_at (l.foldl (fun acc p => insert acc p.1 p.2) t) m =
      (match lookupLastNib l m with
       | some w => some w
       | none => get_at t m) := by
  intro l
  induction l with
  | nil =>
    intro t m
    simp [lookupLastNib]
  | cons p rest ihl =>
    intro t m
    obtain ⟨k, v⟩ := p
    simp only [List.foldl_cons, lookupLastNib]
    rw [ihl]
    cases hrest : lookupLastNib rest m with
    | some w => simp
    | none =>
      simp only
      rw [get_at_insert]
      by_cases hm : m = from_raw k false
      · simp [hm]
      · simp [hm]

theorem lookupLastNib_from_raw :
    ∀ (l : List (List (Fin 256) × List Nat)) (k : List (Fin 256)),
    lookupLastNib l (from_raw k false) = lookupLast l k := by
  intro l
  induction l with
  | nil =>
    intro k
    simp [lookupLastNib, lookupLast]
  | cons p rest ihl =>
    intro k
    obtain ⟨k0, v0⟩ := p
    simp only [lookupLastNib, lookupLast, ihl]
    cases lookupLast rest k with
    | some w => simp
    | none =>
      simp only
      by_cases hk : k = k0
      · simp [hk]
      · rw [if_neg hk, if_neg (fun hcon => hk (from_raw_injective _ _ hcon))]

/-- Lookup in a trie built by a sequence of inserts is exactly the
last-written value of the byte key. -/
theorem get_buildTrie (l : List (List (Fin 256) × List Nat)) (k : List (Fin 256)) :
    get (buildTrie l) k = lookupLast l k := by
  show get_at (List.foldl (fun acc p => insert acc p.1 p.2) Node.null l) (from_raw k false) =
    lookupLast l k
  rw [get_at_buildTrie_aux, lookupLastNib_from_raw]
  cases lookupLast l k <;> simp [get_at_null]

theorem buildTrie_eq_null_iff (l : List (List (Fin 256) × List Nat)) :
    buildTrie l = Node.null ↔ l = [] := by
  constructor
  · intro h
    cases l with
    | nil => rfl
    | cons p rest =>
      exfalso
      have haux : ∀ (r : List (List (Fin 256) × List Nat)) (t : Node),
          t ≠ Node.null → r.foldl (fun acc q => insert acc q.1 q.2) t ≠ Node.null := by
        intro r
        induction r with
        | nil => intro t ht; simpa using ht
        | cons q rr ihr =>
          intro t _
          simp only [List.foldl_cons]
          exact ihr (insert t q.1 q.2) (insert_ne_null t q.1 q.2)
      have := haux rest (insert Node.null p.1 p.2) (insert_ne_null _ _ _)
      rw [show buildTrie (p :: rest) =
        rest.foldl (fun acc q => insert acc q.1 q.2) (insert Node.null p.1 p.2) from rfl] at h
      exact this h
  · intro h
    rw [h]
    rfl

/-! ### Canonical-form invariants are preserved by insertion -/

theorem nonnull_count_eq_one {x : Node} (hx : x ≠ Node.null) : nonnull_count x = 1 := by
  cases x with
  | null => exact absurd rfl hx
  | leaf _ _ => rfl
  | ext _ _ => rfl
  | branch _ _ => rfl

theorem nonnull_count_le_one (x : Node) : nonnull_count x ≤ 1 := by
  cases x <;> simp [nonnull_count]

theorem sum_nonnull_update (f : Fin 16 → Node) (i : Fin 16) (x : Node) :
    (∑ j : Fin 16, nonnull_count (Function.update f i x j)) =
      nonnull_count x + ∑ j ∈ Finset.univ.erase i, nonnull_count (f j) := by
  rw [← Finset.add_sum_erase _ _ (Finset.mem_univ i), Function.update_same]
  congr 1
  apply Finset.sum_congr rfl
  intro j hj
  rw [Function.update_noteq (Finset.mem_erase.mp hj).1]

theorem occ_single (i : Fin 16) (x : Node) (hx : x ≠ Node.null) (v : Option (List Nat)) :
    occ (Function.update empty16 i x) v = 1 + (if v.isSome then 1 else 0) := by
  unfold occ
  rw [sum_nonnull_update, nonnull_count_eq_one hx]
  have hz : (∑ j ∈ Finset.univ.erase i, nonnull_count (empty16 j)) = 0 :=
    Finset.sum_eq_zero (fun j _ => rfl)
  rw [hz]

theorem occ_double (i j : Fin 16) (hij : i ≠ j) (x y : Node) (hx : x ≠ Node.null)
    (hy : y ≠ Node.null) (v : Option (List Nat)) :
    2 ≤ occ (Function.update (Function.update empty16 i x) j y) v := by
  unfold occ
  rw [sum_nonnull_update, nonnull_count_eq_one hy]
  have hmem : i ∈ Finset.univ.erase j := Finset.mem_erase.mpr ⟨hij, Finset.mem_univ i⟩
  have h1 : 1 ≤ ∑ a ∈ Finset.univ.erase j, nonnull_count (Function.update empty16 i x a) := by
    have hle := Finset.single_le_sum (f := fun a => nonnull_count (Function.update empty16 i x a))
      (fun a _ => Nat.zero_le _) hmem
    simp only [Function.update_same, nonnull_count_eq_one hx] at hle
    exact hle
  omega

theorem occ_update_ge (ch : Fin 16 → Node) (v : Option (List Nat)) (i : Fin 16) (x : Node)
    (hx : x ≠ Node.null) (h2 : 2 ≤ occ ch v) : 2 ≤ occ (Function.update ch i x) v := by
  unfold occ at h2 ⊢
  have hsum : (∑ j : Fin 16, nonnull_count (ch j)) ≤
      ∑ j : Fin 16, nonnull_count (Function.update ch i x j) := by
    apply Finset.sum_le_sum
    intro j _
    by_cases hj : j = i
    · subst hj
      rw [Function.update_same, nonnull_count_eq_one hx]
      exact nonnull_count_le_one _
    · rw [Function.update_noteq hj]
  omega

theorem occ_value_mono (ch : Fin 16 → Node) (bv : Option (List Nat)) (v : List Nat)
    (h2 : 2 ≤ occ ch bv) : 2 ≤ occ ch (some v) := by
  unfold occ at h2 ⊢
  simp only [Option.isSome_some, if_true]
  cases bv <;> simp at h2 <;> omega

theorem canonical_update_children (a : Fin 16) (x : Node) (hx : canonical x) :
    ∀ i, canonical (Function.update empty16 a x i) := by
  intro i
  by_cases hi : i = a
  · subst hi
    rw [Function.update_same]
    exact hx
  · rw [Function.update_noteq hi]
    trivial

/-- The result of inserting into a Branch is still a Branch (used for
invariant I1). -/
theorem insert_at_branch_shape {f : Nat} {ch : Fin 16 → Node} {bv : Option (List Nat)}
    {n : List (Fin 16)} {v : List Nat} {t2 : Node}
    (h : insert_at f (.branch ch bv) n v = some t2) : isBranchNode t2 := by
  cases f with
  | zero => simp [insert_at] at h
  | succ f =>
    cases n with
    | nil =>
      simp only [insert_at] at h
      simp only [Option.some.injEq] at h
      subst h
      trivial
    | cons n0 nrest =>
      simp only [insert_at] at h
      cases hrec : insert_at f (ch n0) nrest v with
      | none => rw [hrec] at h; simp at h
      | some cn =>
        rw [hrec] at h
        simp only [Option.some.injEq] at h
        subst h
        trivial

theorem take_ne_nil_of_pos {l : List (Fin 16)} {c : Nat} (hc : 0 < c) (hcl : c ≤ l.length) :
    l.take c ≠ [] := by
  cases l with
  | nil =>
    simp only [List.length_nil] at hcl
    omega
  | cons a as =>
    cases c with
    | zero => omega
    | succ c2 => simp [List.take_succ_cons]

theorem canonical_wrap (c : Nat) (sh : List (Fin 16)) (br : Node)
    (hsh : 0 < c → sh ≠ []) (hbr : isBranchNode br) (hcbr : canonical br) :
    canonical (if 0 < c then Node.ext sh br else br) := by
  by_cases hc : 0 < c
  · rw [if_pos hc]
    exact ⟨hsh hc, hbr, hcbr⟩
  · rw [if_neg hc]
    exact hcbr

theorem leaf_ne_null (k : List (Fin 16)) (v : List Nat) : Node.leaf k v ≠ Node.null :=
  fun hcon => Node.noConfusion hcon

theorem ext_ne_null (p : List (Fin 16)) (nx : Node) : Node.ext p nx ≠ Node.null :=
  fun hcon => Node.noConfusion hcon

theorem branch_ne_null (ch : Fin 16 → Node) (v : Option (List Nat)) :
    Node.branch ch v ≠ Node.null :=
  fun hcon => Node.noConfusion hcon

/-- Insertion preserves the canonical-form invariants I1 and I2. -/
theorem canonical_insert_at : ∀ (f : Nat) (t : Node) (n : List (Fin 16)) (v : List Nat)
    (t2 : Node), insert_at f t n v = some t2 → canonical t → canonical t2 := by
  intro f
  induction f with
  | zero =>
    intro t n v t2 h hcan
    simp [insert_at] at h
  | succ f ih =>
    intro t n v t2 h hcan
    cases t with
    | null =>
      simp only [insert_at, Option.some.injEq] at h
      subst h
      trivial
    | leaf lk lv =>
      simp only [insert_at] at h
      by_cases hboth : common_prefix_len lk n = lk.length ∧ common_prefix_len lk n = n.length
      · rw [if_pos hboth] at h
        simp only [Option.some.injEq] at h
        subst h
        trivial
      · rw [if_neg hboth] at h
        by_cases hc0 : common_prefix_len lk n = 0
        · rw [if_pos hc0] at h
          cases lk with
          | nil =>
            cases n with
            | nil => simp at h
            | cons n0 nrest =>
              simp only [Option.some.injEq] at h
              subst h
              refine ⟨canonical_update_children n0 _ (by trivial), ?_⟩
              rw [occ_single _ _ (leaf_ne_null _ _) _]
              simp
          | cons lk0 lkrest =>
            cases n with
            | nil =>
              simp only [Option.some.injEq] at h
              subst h
              refine ⟨canonical_update_children lk0 _ (by trivial), ?_⟩
              rw [occ_single _ _ (leaf_ne_null _ _) _]
              simp
            | cons n0 nrest =>
              have hne : lk0 ≠ n0 := cpl_zero_head hc0
              simp only [Option.some.injEq] at h
              cases hrec : insert_at f (Function.update empty16 lk0 (Node.leaf lkrest lv) n0)
                  nrest v with
              | none => rw [hrec] at h; simp at h
              | some cn =>
                rw [hrec] at h
                simp only [Option.some.injEq] at h
                subst h
                have hch1 : Function.update empty16 lk0 (Node.leaf lkrest lv) n0 = Node.null :=
                  Function.update_noteq (fun hcon => hne hcon.symm) _ _
                have hccn : canonical cn := ih _ _ _ _ hrec (by rw [hch1]; trivial)
                refine ⟨?_, ?_⟩
                · intro i
                  by_cases hi : i = n0
                  · subst hi
                    rw [Function.update_same]
                    exact hccn
                  · rw [Function.update_noteq hi]
                    exact canonical_update_children lk0 _ (by trivial) i
                · exact occ_double lk0 n0 hne _ _ (leaf_ne_null _ _) (insert_at_ne_null hrec) _
        · rw [if_neg hc0] at h
          have hcpos : 0 < common_prefix_len lk n := Nat.pos_of_ne_zero hc0
          have hcr : common_prefix_len lk n ≤ n.length := cpl_le_right lk n
          cases hld : lk.drop (common_prefix_len lk n) with
          | nil =>
            rw [hld] at h
            cases hnd : n.drop (common_prefix_len lk n) with
            | nil =>
              rw [hnd] at h
              simp only [Option.some.injEq] at h
              subst h
              trivial
            | cons nr0 nrest =>
              rw [hnd] at h
              simp only [Option.some.injEq] at h
              subst h
              apply canonical_wrap _ _ _ (fun hcp => take_ne_nil_of_pos hcp hcr) (by trivial)
              refine ⟨canonical_update_children nr0 _ (by trivial), ?_⟩
              rw [occ_single _ _ (leaf_ne_null _ _) _]
              simp
          | cons lr0 lrest =>
            rw [hld] at h
            cases hnd : n.drop (common_prefix_len lk n) with
            | nil =>
              rw [hnd] at h
              simp only [Option.some.injEq] at h
              subst h
              apply canonical_wrap _ _ _ (fun hcp => take_ne_nil_of_pos hcp hcr) (by trivial)
              refine ⟨canonical_update_children lr0 _ (by trivial), ?_⟩
              rw [occ_single _ _ (leaf_ne_null _ _) _]
              simp
            | cons nr0 nrest =>
              rw [hnd] at h
              simp only [Option.some.injEq] at h
              subst h
              have hlrnr : lr0 ≠ nr0 := cpl_head_ne lk n lr0 lrest nr0 nrest hld hnd
              apply canonical_wrap _ _ _ (fun hcp => take_ne_nil_of_pos hcp hcr) (by trivial)
              refine ⟨?_, ?_⟩
              · intro i
                by_cases hi : i = nr0
                · subst hi
                  rw [Function.update_same]
                  trivial
                · rw [Function.update_noteq hi]
                  exact canonical_update_children lr0 _ (by trivial) i
              · exact occ_double lr0 nr0 hlrnr _ _ (leaf_ne_null _ _) (leaf_ne_null _ _) _
    | ext p nx =>
      obtain ⟨hp, hb, hcnx⟩ := hcan
      simp only [insert_at] at h
      by_cases hcp : common_prefix_len p n = p.length
      · rw [if_pos hcp] at h
        cases hrec : insert_at f nx (n.drop (common_prefix_len p n)) v with
        | none => rw [hrec] at h; simp at h
        | some nx2 =>
          rw [hrec] at h
          simp only [Option.some.injEq] at h
          subst h
          refine ⟨hp, ?_, ih _ _ _ _ hrec hcnx⟩
          cases nx with
          | branch ch2 bv2 => exact insert_at_branch_shape hrec
          | null => exact hb.elim
          | leaf _ _ => exact hb.elim
          | ext _ _ => exact hb.elim
      · rw [if_neg hcp] at h
        have hcl : common_prefix_len p n ≤ p.length := cpl_le_left p n
        cases hpd : p.drop (common_prefix_len p n) with
        | nil =>
          rw [hpd] at h
          simp at h
        | cons er0 erest =>
          rw [hpd] at h
          have hcE : canonical (if erest = [] then nx else Node.ext erest nx) := by
            by_cases he : erest = []
            · rw [if_pos he]
              exact hcnx
            · rw [if_neg he]
              exact ⟨he, hb, hcnx⟩
          have hE_ne : (if erest = [] then nx else Node.ext erest nx) ≠ Node.null := by
            by_cases he : erest = []
            · rw [if_pos he]
              cases nx with
              | branch ch2 bv2 => exact branch_ne_null _ _
              | null => exact hb.elim
              | leaf _ _ => exact hb.elim
              | ext _ _ => exact hb.elim
            · rw [if_neg he]
              exact ext_ne_null _ _
          cases hnd : n.drop (common_prefix_len p n) with
          | nil =>
            rw [hnd] at h
            simp only [Option.some.injEq] at h
            subst h
            apply canonical_wrap _ _ _ (fun hcq => take_ne_nil_of_pos hcq hcl) (by trivial)
            refine ⟨canonical_update_children er0 _ hcE, ?_⟩
            rw [occ_single _ _ hE_ne _]
            simp
          | cons nr0 nrest =>
            rw [hnd] at h
            simp only [Option.some.injEq] at h
            subst h
            have hern : er0 ≠ nr0 := cpl_head_ne p n er0 erest nr0 nrest hpd hnd
            apply canonical_wrap _ _ _ (fun hcq => take_ne_nil_of_pos hcq hcl) (by trivial)
            refine ⟨?_, ?_⟩
            · intro i
              by_cases hi : i = nr0
              · subst hi
                rw [Function.update_same]
                trivial
              · rw [Function.update_noteq hi]
                exact canonical_update_children er0 _ hcE i
            · exact occ_double er0 nr0 hern _ _ hE_ne (leaf_ne_null _ _) _
    | branch ch bv =>
      obtain ⟨hch, hocc⟩ := hcan
      cases n with
      | nil =>
        simp only [insert_at, Option.some.injEq] at h
        subst h
        exact ⟨hch, occ_value_mono _ _ _ hocc⟩
      | cons n0 nrest =>
        simp only [insert_at] at h
        cases hrec : insert_at f (ch n0) nrest v with
        | none => rw [hrec] at h; simp at h
        | some cn =>
          rw [hrec] at h
          simp only [Option.some.injEq] at h
          subst h
          refine ⟨?_, occ_update_ge ch bv n0 cn (insert_at_ne_null hrec) hocc⟩
          intro i
          by_cases hi : i = n0
          · subst hi
            rw [Function.update_same]
            exact ih _ _ _ _ hrec (hch _)
          · rw [Function.update_noteq hi]
            exact hch i

/-! ### Canonical tries are determined by their lookup function -/

theorem two_nonnull_of_sum (g : Fin 16 → Nat) (hle : ∀ i, g i ≤ 1)
    (h2 : 2 ≤ ∑ i : Fin 16, g i) : ∃ i j, i ≠ j ∧ g i = 1 ∧ g j = 1 := by
  classical
  by_cases hex : ∃ i, g i = 1
  · obtain ⟨i0, hi0⟩ := hex
    have hsplit : (∑ i : Fin 16, g i) = g i0 + ∑ j ∈ Finset.univ.erase i0, g j :=
      (Finset.add_sum_erase _ _ (Finset.mem_univ i0)).symm
    have hnz : (∑ j ∈ Finset.univ.erase i0, g j) ≠ 0 := by omega
    obtain ⟨j, hj, hgj⟩ := Finset.exists_ne_zero_of_sum_ne_zero hnz
    refine ⟨i0, j, fun he => (Finset.mem_erase.mp hj).1 he.symm, hi0, ?_⟩
    have := hle j
    omega
  · push_neg at hex
    have hz : ∀ i ∈ Finset.univ, g i = 0 := by
      intro i _
      have h1 := hle i
      have h3 := hex i
      omega
    rw [Finset.sum_congr rfl hz] at h2
    simp at h2

theorem ne_null_of_nonnull_one {x : Node} (h : nonnull_count x = 1) : x ≠ Node.null := by
  intro he
  rw [he] at h
  simp [nonnull_count] at h

theorem exists_two_children (ch : Fin 16 → Node) (h2 : 2 ≤ occ ch none) :
    ∃ i j, i ≠ j ∧ ch i ≠ Node.null ∧ ch j ≠ Node.null := by
  unfold occ at h2
  simp only [Option.isSome_none, Bool.false_eq_true, if_false, Nat.add_zero] at h2
  obtain ⟨i, j, hij, hi, hj⟩ :=
    two_nonnull_of_sum _ (fun i => nonnull_count_le_one (ch i)) h2
  exact ⟨i, j, hij, ne_null_of_nonnull_one hi, ne_null_of_nonnull_one hj⟩

theorem exists_child_of_some (ch : Fin 16 → Node) (v : List Nat)
    (h2 : 2 ≤ occ ch (some v)) : ∃ i, ch i ≠ Node.null := by
  unfold occ at h2
  simp only [Option.isSome_some, if_true] at h2
  have hnz : (∑ i : Fin 16, nonnull_count (ch i)) ≠ 0 := by omega
  obtain ⟨i, _, hi⟩ := Finset.exists_ne_zero_of_sum_ne_zero hnz
  refine ⟨i, fun he => hi ?_⟩
  rw [he]
  rfl

theorem isBranch_ne_null {nx : Node} (hb : isBranchNode nx) : nx ≠ Node.null := by
  cases nx with
  | branch ch bv => exact branch_ne_null ch bv
  | null => exact hb.elim
  | leaf _ _ => exact hb.elim
  | ext _ _ => exact hb.elim

theorem get_at_ext_key (p : List (Fin 16)) (nx : Node) (n1 : List (Fin 16)) :
    get_at (Node.ext p nx) (p ++ n1) = get_at nx n1 := by
  rw [get_at_ext_pos _ _ _ (List.take_left p n1), List.drop_left]

/-- Every canonical non-Null subtree holds at least one key. -/
theorem exists_key : ∀ t : Node, canonical t → t ≠ Node.null →
    ∃ n, (get_at t n).isSome = true := by
  intro t
  induction t with
  | null =>
    intro _ h
    exact absurd rfl h
  | leaf k v =>
    intro _ _
    exact ⟨k, by rw [get_at_leaf, if_pos rfl]; rfl⟩
  | ext p nx ihnx =>
    intro hcan _
    obtain ⟨hp, hb, hcnx⟩ := hcan
    obtain ⟨n1, hn1⟩ := ihnx hcnx (isBranch_ne_null hb)
    exact ⟨p ++ n1, by rw [get_at_ext_key]; exact hn1⟩
  | branch ch v ihch =>
    intro hcan _
    obtain ⟨hch, hocc⟩ := hcan
    cases hv : v with
    | some vv => exact ⟨[], by rw [get_at_branch_nil]; rfl⟩
    | none =>
      subst hv
      obtain ⟨i, _, _, hi, _⟩ := exists_two_children ch hocc
      obtain ⟨n1, hn1⟩ := ihch i (hch i) hi
      exact ⟨i :: n1, by rw [get_at_branch_cons]; exact hn1⟩

theorem branch_two_keys (ch : Fin 16 → Node) (v : Option (List Nat))
    (hcan : canonical (Node.branch ch v)) :
    ∃ n1 n2, n1 ≠ n2 ∧ (get_at (Node.branch ch v) n1).isSome = true ∧
      (get_at (Node.branch ch v) n2).isSome = true := by
  obtain ⟨hch, hocc⟩ := hcan
  cases hv : v with
  | some vv =>
    subst hv
    obtain ⟨i, hi⟩ := exists_child_of_some ch vv hocc
    obtain ⟨n1, hn1⟩ := exists_key (ch i) (hch i) hi
    refine ⟨[], i :: n1, by simp, ?_, ?_⟩
    · rw [get_at_branch_nil]
      rfl
    · rw [get_at_branch_cons]
      exact hn1
  | none =>
    subst hv
    obtain ⟨i, j, hij, hi, hj⟩ := exists_two_children ch hocc
    obtain ⟨n1, hn1⟩ := exists_key (ch i) (hch i) hi
    obtain ⟨n2, hn2⟩ := exists_key (ch j) (hch j) hj
    refine ⟨i :: n1, j :: n2, ?_, ?_, ?_⟩
    · intro he
      exact hij (List.head_eq_of_cons_eq he)
    · rw [get_at_branch_cons]
      exact hn1
    · rw [get_at_branch_cons]
      exact hn2

theorem ext_two_keys (p : List (Fin 16)) (nx : Node) (hcan : canonical (Node.ext p nx)) :
    ∃ n1 n2, n1 ≠ n2 ∧ (get_at (Node.ext p nx) n1).isSome = true ∧
      (get_at (Node.ext p nx) n2).isSome = true := by
  obtain ⟨hp, hb, hcnx⟩ := hcan
  cases nx with
  | branch ch2 bv2 =>
    obtain ⟨n1, n2, hne, h1, h2⟩ := branch_two_keys ch2 bv2 hcnx
    refine ⟨p ++ n1, p ++ n2, ?_, ?_, ?_⟩
    · intro he
      exact hne (List.append_cancel_left he)
    · rw [get_at_ext_key]
      exact h1
    · rw [get_at_ext_key]
      exact h2
  | null => exact hb.elim
  | leaf _ _ => exact hb.elim
  | ext _ _ => exact hb.elim

theorem get_at_ext_isSome {p : List (Fin 16)} {nx : Node} {n : List (Fin 16)}
    (h : (get_at (Node.ext p nx) n).isSome = true) : n.take p.length = p := by
  by_cases hc : n.take p.length = p
  · exact hc
  · rw [get_at_ext_neg _ _ _ hc] at h
    simp at h

theorem head_of_take {n p : List (Fin 16)} {p0 : Fin 16} {pr : List (Fin 16)}
    (hp : p = p0 :: pr) (h : n.take p.length = p) : ∃ nr, n = p0 :: nr := by
  cases n with
  | nil =>
    rw [hp] at h
    simp at h
  | cons a as =>
    rw [hp, List.length_cons, List.take_succ_cons] at h
    exact ⟨as, by rw [List.head_eq_of_cons_eq h]⟩

/-- A canonical Branch cannot have all its keys starting with one fixed
nibble (it has the empty key, or keys under two distinct slots). -/
theorem branch_not_uniform (ch : Fin 16 → Node) (v : Option (List Nat))
    (hcan : canonical (Node.branch ch v)) (q0 : Fin 16)
    (hall : ∀ n, (get_at (Node.branch ch v) n).isSome = true → ∃ nr, n = q0 :: nr) :
    False := by
  obtain ⟨hch, hocc⟩ := hcan
  cases hv : v with
  | some vv =>
    subst hv
    obtain ⟨nr, hnr⟩ := hall [] (by rw [get_at_branch_nil]; rfl)
    simp at hnr
  | none =>
    subst hv
    obtain ⟨i, j, hij, hi, hj⟩ := exists_two_children ch hocc
    obtain ⟨a, ha⟩ := exists_key (ch i) (hch i) hi
    obtain ⟨b, hb⟩ := exists_key (ch j) (hch j) hj
    obtain ⟨nr1, h1⟩ := hall (i :: a) (by rw [get_at_branch_cons]; exact ha)
    obtain ⟨nr2, h2⟩ := hall (j :: b) (by rw [get_at_branch_cons]; exact hb)
    exact hij ((List.head_eq_of_cons_eq h1).trans (List.head_eq_of_cons_eq h2).symm)

theorem leaf_vs_two (k : List (Fin 16)) (v : List Nat) (t2 : Node)
    (hsem : ∀ n, get_at (Node.leaf k v) n = get_at t2 n)
    (htwo : ∃ n1 n2, n1 ≠ n2 ∧ (get_at t2 n1).isSome = true ∧
      (get_at t2 n2).isSome = true) : False := by
  obtain ⟨n1, n2, hne, h1, h2⟩ := htwo
  have e1 : k = n1 := by
    by_cases hk : k = n1
    · exact hk
    · have hx := hsem n1
      rw [get_at_leaf, if_neg hk] at hx
      rw [← hx] at h1
      simp at h1
  have e2 : k = n2 := by
    by_cases hk : k = n2
    · exact hk
    · have hx := hsem n2
      rw [get_at_leaf, if_neg hk] at hx
      rw [← hx] at h2
      simp at h2
  exact hne (e1.symm.trans e2)

/-- If a canonical Extension node semantically matches something whose keys
all extend a strictly longer prefix p2, the Extension's Branch child would
have all keys under one nibble: impossible. -/
theorem ext_prefix_absurd (p p2 : List (Fin 16)) (nx t2 : Node)
    (hb : isBranchNode nx) (hcnx : canonical nx)
    (hsem : ∀ n, get_at (Node.ext p nx) n = get_at t2 n)
    (hkeys : ∀ n, (get_at t2 n).isSome = true → n.take p2.length = p2)
    (hlt : p.length < p2.length) : False := by
  obtain ⟨q0, qr, hq⟩ : ∃ q0 qr, p2.drop p.length = q0 :: qr := by
    cases hx : p2.drop p.length with
    | nil =>
      exfalso
      have hlen := congrArg List.length hx
      rw [List.length_drop] at hlen
      simp at hlen
      omega
    | cons a b => exact ⟨a, b, rfl⟩
  cases nx with
  | branch chx bvx =>
    apply branch_not_uniform chx bvx hcnx q0
    intro n hn
    have hkey : (get_at t2 (p ++ n)).isSome = true := by
      rw [← hsem (p ++ n), get_at_ext_key]
      exact hn
    have hd := drop_of_take_eq (hkeys (p ++ n) hkey) (Nat.le_of_lt hlt)
    rw [List.drop_left, hq] at hd
    have hlen_eq : p2.length - p.length = (q0 :: qr).length := by
      rw [← hq, List.length_drop]
    rw [hlen_eq] at hd
    exact head_of_take rfl hd
  | null => exact hb.elim
  | leaf _ _ => exact hb.elim
  | ext _ _ => exact hb.elim

/-- Canonical tries with the same lookup function are structurally equal. -/
theorem canonical_unique : ∀ t1 : Node, canonical t1 → ∀ t2 : Node, canonical t2 →
    (∀ n, get_at t1 n = get_at t2 n) → t1 = t2 := by
  intro t1
  induction t1 with
  | null =>
    intro _ t2 hc2 hsem
    by_contra hne
    obtain ⟨n, hn⟩ := exists_key t2 hc2 (fun he => hne he.symm)
    rw [← hsem n, get_at_null] at hn
    simp at hn
  | leaf k v =>
    intro _ t2 hc2 hsem
    cases t2 with
    | null =>
      exfalso
      have hx := hsem k
      rw [get_at_leaf, if_pos rfl, get_at_null] at hx
      simp at hx
    | leaf k2 v2 =>
      have h1 := hsem k
      rw [get_at_leaf, if_pos rfl, get_at_leaf] at h1
      by_cases hk : k2 = k
      · rw [if_pos hk] at h1
        rw [hk, Option.some_inj.mp h1]
      · rw [if_neg hk] at h1
        simp at h1
    | ext p2 nx2 =>
      exact absurd (ext_two_keys p2 nx2 hc2) (fun htwo => leaf_vs_two k v _ hsem htwo)
    | branch ch2 bv2 =>
      exact absurd (branch_two_keys ch2 bv2 hc2) (fun htwo => leaf_vs_two k v _ hsem htwo)
  | ext p nx ihnx =>
    intro hc1 t2 hc2 hsem
    obtain ⟨hp, hb, hcnx⟩ := hc1
    cases t2 with
    | null =>
      exfalso
      obtain ⟨n, hn⟩ := exists_key (Node.ext p nx) ⟨hp, hb, hcnx⟩ (ext_ne_null p nx)
      rw [hsem n, get_at_null] at hn
      simp at hn
    | leaf k2 v2 =>
      exact absurd (ext_two_keys p nx ⟨hp, hb, hcnx⟩)
        (fun htwo => leaf_vs_two k2 v2 _ (fun n => (hsem n).symm) htwo)
    | branch ch2 bv2 =>
      exfalso
      obtain ⟨p0, pr, hp_eq⟩ : ∃ p0 pr, p = p0 :: pr := by
        cases p with
        | nil => exact absurd rfl hp
        | cons a b => exact ⟨a, b, rfl⟩
      apply branch_not_uniform ch2 bv2 hc2 p0
      intro n hn
      rw [← hsem n] at hn
      exact head_of_take hp_eq (get_at_ext_isSome hn)
    | ext p2 nx2 =>
      obtain ⟨hp2, hb2, hcnx2⟩ := hc2
      have hpp : p = p2 := by
        obtain ⟨n0, hn0⟩ := exists_key (Node.ext p nx) ⟨hp, hb, hcnx⟩ (ext_ne_null p nx)
        have hn0' : (get_at (Node.ext p2 nx2) n0).isSome = true := by
          rw [← hsem n0]
          exact hn0
        have ht1 := get_at_ext_isSome hn0
        have ht2 := get_at_ext_isSome hn0'
        rcases Nat.lt_trichotomy p.length p2.length with hlt | heq | hlt
        · exact absurd (ext_prefix_absurd p p2 nx (Node.ext p2 nx2) hb hcnx hsem
            (fun n hn => get_at_ext_isSome hn) hlt) id
        · rw [← ht1, ← ht2, heq]
        · exact absurd (ext_prefix_absurd p2 p nx2 (Node.ext p nx) hb2 hcnx2
            (fun n => (hsem n).symm) (fun n hn => get_at_ext_isSome hn) hlt) id
      subst hpp
      have hsem2 : ∀ n, get_at nx n = get_at nx2 n := by
        intro n
        have hx := hsem (p ++ n)
        rw [get_at_ext_key, get_at_ext_key] at hx
        exact hx
      rw [ihnx hcnx nx2 hcnx2 hsem2]
  | branch ch bv ihch =>
    intro hc1 t2 hc2 hsem
    obtain ⟨hch, hocc⟩ := hc1
    cases t2 with
    | null =>
      exfalso
      obtain ⟨n, hn⟩ := exists_key (Node.branch ch bv) ⟨hch, hocc⟩ (branch_ne_null ch bv)
      rw [hsem n, get_at_null] at hn
      simp at hn
    | leaf k2 v2 =>
      exact absurd (branch_two_keys ch bv ⟨hch, hocc⟩)
        (fun htwo => leaf_vs_two k2 v2 _ (fun n => (hsem n).symm) htwo)
    | ext p2 nx2 =>
      exfalso
      obtain ⟨hp2, hb2, hcnx2⟩ := hc2
      obtain ⟨p0, pr, hp_eq⟩ : ∃ p0 pr, p2 = p0 :: pr := by
        cases p2 with
        | nil => exact absurd rfl hp2
        | cons a b => exact ⟨a, b, rfl⟩
      apply branch_not_uniform ch bv ⟨hch, hocc⟩ p0
      intro n hn
      rw [hsem n] at hn
      exact head_of_take hp_eq (get_at_ext_isSome hn)
    | branch ch2 bv2 =>
      obtain ⟨hch2, hocc2⟩ := hc2
      have hv : bv = bv2 := by
        have hx := hsem []
        rwa [get_at_branch_nil, get_at_branch_nil] at hx
      have hcheq : ch = ch2 := by
        funext i
        apply ihch i (hch i) (ch2 i) (hch2 i)
        intro n
        have hx := hsem (i :: n)
        rwa [get_at_branch_cons, get_at_branch_cons] at hx
      rw [hv, hcheq]

theorem lookupLastNib_none_of_not_image :
    ∀ (l : List (List (Fin 256) × List Nat)) (m : List (Fin 16)),
    (∀ k, m ≠ from_raw k false) → lookupLastNib l m = none := by
  intro l
  induction l with
  | nil =>
    intro m _
    rfl
  | cons p rest ihl =>
    intro m him
    obtain ⟨k0, v0⟩ := p
    show (match lookupLastNib rest m with
      | some v => some v
      | none => if m = from_raw k0 false then some v0 else none) = none
    rw [ihl m him, if_neg (him k0)]

theorem get_at_buildTrie_congr (l1 l2 : List (List (Fin 256) × List Nat))
    (h : ∀ k, lookupLast l1 k = lookupLast l2 k) (m : List (Fin 16)) :
    get_at (buildTrie l1) m = get_at (buildTrie l2) m := by
  show get_at (l1.foldl (fun acc p => insert acc p.1 p.2) Node.null) m =
    get_at (l2.foldl (fun acc p => insert acc p.1 p.2) Node.null) m
  rw [get_at_buildTrie_aux, get_at_buildTrie_aux]
  have hnib : lookupLastNib l1 m = lookupLastNib l2 m := by
    by_cases him : ∃ k, m = from_raw k false
    · obtain ⟨k, hk⟩ := him
      subst hk
      rw [lookupLastNib_from_raw, lookupLastNib_from_raw, h k]
    · push_neg at him
      rw [lookupLastNib_none_of_not_image l1 m him,
        lookupLastNib_none_of_not_image l2 m him]
  rw [hnib]

theorem canonical_insert (t : Node) (k : List (Fin 256)) (v : List Nat)
    (hc : canonical t) : canonical (insert t k v) :=
  canonical_insert_at _ _ _ _ _ (insert_eq_insert_at t k v) hc

theorem canonical_foldl_insert :
    ∀ (l : List (List (Fin 256) × List Nat)) (t : Node), canonical t →
    canonical (l.foldl (fun acc p => insert acc p.1 p.2) t) := by
  intro l
  induction l with
  | nil =>
    intro t hc
    exact hc
  | cons p rest ihl =>
    intro t hc
    exact ihl _ (canonical_insert t p.1 p.2 hc)

theorem canonical_buildTrie (l : List (List (Fin 256) × List Nat)) :
    canonical (buildTrie l) :=
  canonical_foldl_insert l Node.null trivial

/-- Two insertion sequences realising the same key-value map build the
same node tree (they agree pointwise and both are canonical). -/
theorem buildTrie_congr (l1 l2 : List (List (Fin 256) × List Nat))
    (h : ∀ k, lookupLast l1 k = lookupLast l2 k) : buildTrie l1 = buildTrie l2 :=
  canonical_unique _ (canonical_buildTrie l1) _ (canonical_buildTrie l2)
    (get_at_buildTrie_congr l1 l2 h)

/-! ### Size/non-emptiness invariants are preserved by insertion -/

theorem entries_ok_update (g : Fin 16 → Node) (i : Fin 16) (x : Node)
    (hg : ∀ j, entries_ok (g j)) (hx : entries_ok x) (j : Fin 16) :
    entries_ok (Function.update g i x j) := by
  by_cases hj : j = i
  · subst hj
    rw [Function.update_same]
    exact hx
  · rw [Function.update_noteq hj]
    exact hg j

theorem entries_ok_empty16 (j : Fin 16) : entries_ok (empty16 j) := trivial

/-- Insertion with a non-empty, size-bounded value under a size-bounded
key keeps every stored key, prefix and value non-empty/size-bounded. -/
theorem entries_ok_insert_at : ∀ (f : Nat) (t : Node) (n : List (Fin 16)) (v : List Nat)
    (t2 : Node), insert_at f t n v = some t2 →
    n.length ≤ MAXL → v ≠ [] → v.length ≤ MAXL → entries_ok t → entries_ok t2 := by
  intro f
  induction f with
  | zero =>
    intro t n v t2 h _ _ _ _
    simp [insert_at] at h
  | succ f ih =>
    intro t n v t2 h hn hv hvl hok
    cases t with
    | null =>
      simp only [insert_at, Option.some.injEq] at h
      subst h
      exact ⟨hv, hvl, hn⟩
    | leaf lk lv =>
      obtain ⟨hlv, hlvl, hlk⟩ := hok
      simp only [insert_at] at h
      by_cases hboth : common_prefix_len lk n = lk.length ∧ common_prefix_len lk n = n.length
      · rw [if_pos hboth] at h
        simp only [Option.some.injEq] at h
        subst h
        exact ⟨hv, hvl, hlk⟩
      · rw [if_neg hboth] at h
        by_cases hc0 : common_prefix_len lk n = 0
        · rw [if_pos hc0] at h
          cases lk with
          | nil =>
            cases n with
            | nil => simp at h
            | cons n0 nrest =>
              simp only [Option.some.injEq] at h
              subst h
              have hnr : nrest.length ≤ MAXL := by
                rw [List.length_cons] at hn
                omega
              exact ⟨entries_ok_update _ _ _ entries_ok_empty16 ⟨hv, hvl, hnr⟩,
                fun vv hvv => by rw [Option.some.injEq] at hvv; rw [← hvv]; exact ⟨hlv, hlvl⟩⟩
          | cons lk0 lkrest =>
            cases n with
            | nil =>
              simp only [Option.some.injEq] at h
              subst h
              have hlr : lkrest.length ≤ MAXL := by
                rw [List.length_cons] at hlk
                omega
              exact ⟨entries_ok_update _ _ _ entries_ok_empty16 ⟨hlv, hlvl, hlr⟩,
                fun vv hvv => by rw [Option.some.injEq] at hvv; rw [← hvv]; exact ⟨hv, hvl⟩⟩
            | cons n0 nrest =>
              simp only [Option.some.injEq] at h
              cases hrec : insert_at f (Function.update empty16 lk0 (Node.leaf lkrest lv) n0)
                  nrest v with
              | none => rw [hrec] at h; simp at h
              | some cn =>
                rw [hrec] at h
                simp only [Option.some.injEq] at h
                subst h
                have hnr : nrest.length ≤ MAXL := by
                  rw [List.length_cons] at hn
                  omega
                have hlr : lkrest.length ≤ MAXL := by
                  rw [List.length_cons] at hlk
                  omega
                have hok1 : ∀ j, entries_ok
                    (Function.update empty16 lk0 (Node.leaf lkrest lv) j) :=
                  entries_ok_update _ _ _ entries_ok_empty16 ⟨hlv, hlvl, hlr⟩
                have hcn : entries_ok cn := ih _ _ _ _ hrec hnr hv hvl (hok1 n0)
                exact ⟨entries_ok_update _ _ _ hok1 hcn, fun vv hvv => by simp at hvv⟩
        · rw [if_neg hc0] at h
          have hsh : (n.take (common_prefix_len lk n)).length ≤ MAXL := by
            rw [List.length_take]
            omega
          cases hld : lk.drop (common_prefix_len lk n) with
          | nil =>
            rw [hld] at h
            cases hnd : n.drop (common_prefix_len lk n) with
            | nil =>
              rw [hnd] at h
              simp only [Option.some.injEq] at h
              subst h
              exact ⟨hv, hvl, hsh⟩
            | cons nr0 nrest =>
              rw [hnd] at h
              simp only [Option.some.injEq] at h
              subst h
              have hnr : nrest.length ≤ MAXL := by
                have hlen := congrArg List.length hnd
                rw [List.length_drop, List.length_cons] at hlen
                omega
              have hbr : entries_ok (Node.branch
                  (Function.update empty16 nr0 (Node.leaf nrest v)) (some lv)) :=
                ⟨entries_ok_update _ _ _ entries_ok_empty16 ⟨hv, hvl, hnr⟩,
                  fun vv hvv => by rw [Option.some.injEq] at hvv; rw [← hvv]; exact ⟨hlv, hlvl⟩⟩
              by_cases hcpos : 0 < common_prefix_len lk n
              · rw [if_pos hcpos]
                exact ⟨hsh, hbr⟩
              · rw [if_neg hcpos]
                exact hbr
          | cons lr0 lrest =>
            rw [hld] at h
            have hlr : lrest.length ≤ MAXL := by
              have hlen := congrArg List.length hld
              rw [List.length_drop, List.length_cons] at hlen
              omega
            cases hnd : n.drop (common_prefix_len lk n) with
            | nil =>
              rw [hnd] at h
              simp only [Option.some.injEq] at h
              subst h
              have hbr : entries_ok (Node.branch
                  (Function.update empty16 lr0 (Node.leaf lrest lv)) (some v)) :=
                ⟨entries_ok_update _ _ _ entries_ok_empty16 ⟨hlv, hlvl, hlr⟩,
                  fun vv hvv => by rw [Option.some.injEq] at hvv; rw [← hvv]; exact ⟨hv, hvl⟩⟩
              by_cases hcpos : 0 < common_prefix_len lk n
              · rw [if_pos hcpos]
                exact ⟨hsh, hbr⟩
              · rw [if_neg hcpos]
                exact hbr
            | cons nr0 nrest =>
              rw [hnd] at h
              simp only [Option.some.injEq] at h
              subst h
              have hnr : nrest.length ≤ MAXL := by
                have hlen := congrArg List.length hnd
                rw [List.length_drop, List.length_cons] at hlen
                omega
              have hbr : entries_ok (Node.branch
                  (Function.update (Function.update empty16 lr0 (Node.leaf lrest lv))
                    nr0 (Node.leaf nrest v)) none) :=
                ⟨entries_ok_update _ _ _
                  (entries_ok_update _ _ _ entries_ok_empty16 ⟨hlv, hlvl, hlr⟩)
                  ⟨hv, hvl, hnr⟩,
                  fun vv hvv => by simp at hvv⟩
              by_cases hcpos : 0 < common_prefix_len lk n
              · rw [if_pos hcpos]
                exact ⟨hsh, hbr⟩
              · rw [if_neg hcpos]
                exact hbr
    | ext p nx =>
      obtain ⟨hpl, hnxok⟩ := hok
      simp only [insert_at] at h
      by_cases hcp : common_prefix_len p n = p.length
      · rw [if_pos hcp] at h
        cases hrec : insert_at f nx (n.drop (common_prefix_len p n)) v with
        | none => rw [hrec] at h; simp at h
        | some nx2 =>
          rw [hrec] at h
          simp only [Option.some.injEq] at h
          subst h
          have hdl : (n.drop (common_prefix_len p n)).length ≤ MAXL := by
            rw [List.length_drop]
            omega
          exact ⟨hpl, ih _ _ _ _ hrec hdl hv hvl hnxok⟩
      · rw [if_neg hcp] at h
        have hsh : (p.take (common_prefix_len p n)).length ≤ MAXL := by
          rw [List.length_take]
          omega
        cases hpd : p.drop (common_prefix_len p n) with
        | nil =>
          rw [hpd] at h
          simp at h
        | cons er0 erest =>
          rw [hpd] at h
          have her : erest.length ≤ MAXL := by
            have hlen := congrArg List.length hpd
            rw [List.length_drop, List.length_cons] at hlen
            omega
          have hokE : entries_ok (if erest = [] then nx else Node.ext erest nx) := by
            by_cases he : erest = []
            · rw [if_pos he]
              exact hnxok
            · rw [if_neg he]
              exact ⟨her, hnxok⟩
          cases hnd : n.drop (common_prefix_len p n) with
          | nil =>
            rw [hnd] at h
            simp only [Option.some.injEq] at h
            subst h
            have hbr : entries_ok (Node.branch
                (Function.update empty16 er0 (if erest = [] then nx else Node.ext erest nx))
                (some v)) :=
              ⟨entries_ok_update _ _ _ entries_ok_empty16 hokE,
                fun vv hvv => by rw [Option.some.injEq] at hvv; rw [← hvv]; exact ⟨hv, hvl⟩⟩
            by_cases hcpos : 0 < common_prefix_len p n
            · rw [if_pos hcpos]
              exact ⟨hsh, hbr⟩
            · rw [if_neg hcpos]
              exact hbr
          | cons nr0 nrest =>
            rw [hnd] at h
            simp only [Option.some.injEq] at h
            subst h
            have hnr : nrest.length ≤ MAXL := by
              have hlen := congrArg List.length hnd
              rw [List.length_drop, List.length_cons] at hlen
              omega
            have hbr : entries_ok (Node.branch
                (Function.update
                  (Function.update empty16 er0 (if erest = [] then nx else Node.ext erest nx))
                  nr0 (Node.leaf nrest v)) none) :=
              ⟨entries_ok_update _ _ _
                (entries_ok_update _ _ _ entries_ok_empty16 hokE) ⟨hv, hvl, hnr⟩,
                fun vv hvv => by simp at hvv⟩
            by_cases hcpos : 0 < common_prefix_len p n
            · rw [if_pos hcpos]
              exact ⟨hsh, hbr⟩
            · rw [if_neg hcpos]
              exact hbr
    | branch ch bv =>
      obtain ⟨hch, hbv⟩ := hok
      cases n with
      | nil =>
        simp only [insert_at, Option.some.injEq] at h
        subst h
        exact ⟨hch, fun vv hvv => by rw [Option.some.injEq] at hvv; rw [← hvv]; exact ⟨hv, hvl⟩⟩
      | cons n0 nrest =>
        simp only [insert_at] at h
        cases hrec : insert_at f (ch n0) nrest v with
        | none => rw [hrec] at h; simp at h
        | some cn =>
          rw [hrec] at h
          simp only [Option.some.injEq] at h
          subst h
          have hnr : nrest.length ≤ MAXL := by
            rw [List.length_cons] at hn
            omega
          exact ⟨entries_ok_update _ _ _ hch (ih _ _ _ _ hrec hnr hv hvl (hch n0)), hbv⟩

theorem from_raw_length (k : List (Fin 256)) (b : Bool) :
    (from_raw k b).length = 2 * k.length := by
  induction k with
  | nil => rfl
  | cons k0 rest ihk =>
    show ([hiNib k0, loNib k0] ++ from_raw rest b).length = 2 * (k0 :: rest).length
    simp only [List.length_append, List.length_cons, List.length_nil, ihk]
    omega

theorem entries_ok_insert (t : Node) (k : List (Fin 256)) (v : List Nat)
    (hk : 2 * k.length ≤ MAXL) (hv : v ≠ []) (hvl : v.length ≤ MAXL)
    (hok : entries_ok t) : entries_ok (insert t k v) :=
  entries_ok_insert_at _ _ _ _ _ (insert_eq_insert_at t k v)
    (by rw [from_raw_length]; exact hk) hv hvl hok

theorem entries_ok_foldl_insert :
    ∀ (l : List (List (Fin 256) × List Nat)) (t : Node),
    (∀ p ∈ l, p.2 ≠ [] ∧ p.2.length ≤ MAXL ∧ 2 * p.1.length ≤ MAXL) →
    entries_ok t → entries_ok (l.foldl (fun acc p => insert acc p.1 p.2) t) := by
  intro l
  induction l with
  | nil =>
    intro t _ hok
    exact hok
  | cons p rest ihl =>
    intro t hl hok
    obtain ⟨hv, hvl, hk⟩ := hl p (List.mem_cons_self p rest)
    exact ihl _ (fun q hq => hl q (List.mem_cons_of_mem p hq))
      (entries_ok_insert t p.1 p.2 hk hv hvl hok)

theorem entries_ok_buildTrie (l : List (List (Fin 256) × List Nat))
    (h : ∀ p ∈ l, p.2 ≠ [] ∧ p.2.length ≤ MAXL ∧ 2 * p.1.length ≤ MAXL) :
    entries_ok (buildTrie l) :=
  entries_ok_foldl_insert l Node.null h trivial

/-! ### RLP length-field arithmetic -/

theorem be_val_append (l : List Nat) (b : Nat) : be_val (l ++ [b]) = be_val l * 256 + b := by
  unfold be_val
  rw [List.foldl_append]
  rfl

theorem be_val_be_bytes_aux : ∀ (f n : Nat), n ≤ f → be_val (be_bytes_aux f n) = n := by
  intro f
  induction f with
  | zero =>
    intro n h
    have h0 : n = 0 := by omega
    subst h0
    rfl
  | succ f ihf =>
    intro n h
    show be_val (if n = 0 then [] else be_bytes_aux f (n / 256) ++ [n % 256]) = n
    by_cases h0 : n = 0
    · subst h0
      rfl
    · rw [if_neg h0, be_val_append]
      have hdiv : n / 256 ≤ f := by
        have := Nat.div_lt_self (Nat.pos_of_ne_zero h0) (by norm_num : 1 < 256)
        omega
      rw [ihf (n / 256) hdiv]
      omega

theorem be_val_be_bytes (n : Nat) : be_val (be_bytes n) = n :=
  be_val_be_bytes_aux n n le_rfl

theorem be_bytes_aux_len : ∀ (f n k : Nat), n ≤ f → n < 256 ^ k →
    (be_bytes_aux f n).length ≤ k := by
  intro f
  induction f with
  | zero =>
    intro n k _ _
    simp [be_bytes_aux]
  | succ f ihf =>
    intro n k hf hk
    show (if n = 0 then [] else be_bytes_aux f (n / 256) ++ [n % 256]).length ≤ k
    by_cases h0 : n = 0
    · rw [if_pos h0]
      simp
    · rw [if_neg h0, List.length_append]
      have hk1 : 1 ≤ k := by
        by_contra hcon
        push_neg at hcon
        have hx : k = 0 := by omega
        subst hx
        simp at hk
        omega
      have hdiv : n / 256 ≤ f := by
        have := Nat.div_lt_self (Nat.pos_of_ne_zero h0) (by norm_num : 1 < 256)
        omega
      have hpow : 256 ^ k = 256 ^ (k - 1) * 256 := by
        conv_lhs => rw [show k = (k - 1) + 1 by omega]
        rw [pow_succ]
      have hlt : n / 256 < 256 ^ (k - 1) :=
        (Nat.div_lt_iff_lt_mul (by norm_num)).mpr (by omega)
      have := ihf (n / 256) (k - 1) hdiv hlt
      simp only [List.length_cons, List.length_nil]
      omega

theorem be_bytes_len_le (n k : Nat) (h : n < 256 ^ k) : (be_bytes n).length ≤ k :=
  be_bytes_aux_len n n k le_rfl h

theorem be_bytes_len_pos (n : Nat) (h : n ≠ 0) : 1 ≤ (be_bytes n).length := by
  unfold be_bytes
  match n, h with
  | m + 1, _ =>
    show (if m + 1 = 0 then [] else be_bytes_aux m ((m + 1) / 256) ++ [(m + 1) % 256]).length ≥ 1
    rw [if_neg (by omega), List.length_append]
    simp

/-! ### Compact-encoding length facts -/

theorem pack_pairs_length : ∀ l : List (Fin 16), (pack_pairs l).length = l.length / 2
  | [] => rfl
  | [a] => by simp [pack_pairs]
  | a :: b :: rest => by
      show (pack_pairs rest).length + 1 = (rest.length + 1 + 1) / 2
      rw [pack_pairs_length rest]
      omega

theorem encode_compact_len (k : List (Fin 16)) (f : Bool) :
    (encode_compact k f).length = 1 + k.length / 2 := by
  unfold encode_compact
  by_cases hp : k.length % 2 = 1
  · rw [if_pos hp]
    simp only [List.length_cons, pack_pairs_length, List.length_tail]
    omega
  · rw [if_neg hp]
    simp only [List.length_cons, pack_pairs_length]
    omega

theorem encode_compact_ne_nil (k : List (Fin 16)) (f : Bool) : encode_compact k f ≠ [] := by
  intro he
  have := congrArg List.length he
  rw [encode_compact_len] at this
  simp at this

theorem compact_flag_true (k : List (Fin 16)) :
    ((encode_compact k true).headD 0 >>> 4) &&& 2 ≠ 0 := by
  have h := encode_compact_leaf_flag k true
  simpa [compact_is_leaf] using h

theorem compact_flag_false (k : List (Fin 16)) :
    ((encode_compact k false).headD 0 >>> 4) &&& 2 = 0 := by
  have h := encode_compact_leaf_flag k false
  simpa [compact_is_leaf] using h

/-! ### RLP item parsing -/

/-- `it` is one complete RLP item: its header parses and its total length
is exactly header length plus payload length. -/
def rlp_item (it : List Nat) : Prop :=
  ∃ h l, payload_info it = some (h, l) ∧ it.length = h + l

theorem payload_info_append : ∀ (it rest : List Nat) (h l : Nat),
    payload_info it = some (h, l) → payload_info (it ++ rest) = some (h, l) := by
  intro it rest h l hp
  cases it with
  | nil => simp [payload_info] at hp
  | cons b tl =>
    show payload_info (b :: (tl ++ rest)) = some (h, l)
    simp only [payload_info] at hp ⊢
    by_cases h1 : b < 0x80
    · rw [if_pos h1] at hp ⊢
      exact hp
    · rw [if_neg h1] at hp ⊢
      by_cases h2 : b ≤ 0xb7
      · rw [if_pos h2] at hp ⊢
        exact hp
      · rw [if_neg h2] at hp ⊢
        by_cases h3 : b < 0xc0
        · rw [if_pos h3] at hp ⊢
          by_cases h4 : tl.length < b - 0xb7
          · rw [if_pos h4] at hp
            exact absurd hp (by simp)
          · rw [if_neg h4] at hp
            push_neg at h4
            rw [if_neg (by rw [List.length_append]; omega),
              List.take_append_of_le_length h4]
            exact hp
        · rw [if_neg h3] at hp ⊢
          by_cases h5 : b ≤ 0xf7
          · rw [if_pos h5] at hp ⊢
            exact hp
          · rw [if_neg h5] at hp ⊢
            by_cases h6 : tl.length < b - 0xf7
            · rw [if_pos h6] at hp
              exact absurd hp (by simp)
            · rw [if_neg h6] at hp
              push_neg at h6
              rw [if_neg (by rw [List.length_append]; omega),
                List.take_append_of_le_length h6]
              exact hp

theorem split_items_nil (f : Nat) : split_items f [] = some [] := by
  cases f <;> rfl

theorem split_items_cons (f : Nat) (it more : List Nat) (res : List (List Nat))
    (hitem : rlp_item it) (hmore : split_items f more = some res) :
    split_items (f + 1) (it ++ more) = some (it :: res) := by
  obtain ⟨h, l, hp, hlen⟩ := hitem
  cases it with
  | nil => simp [payload_info] at hp
  | cons b tl =>
    have hpi : payload_info ((b :: tl) ++ more) = some (h, l) :=
      payload_info_append _ _ _ _ hp
    show split_items (f + 1) ((b :: tl) ++ more) = some ((b :: tl) :: res)
    rw [show (b :: tl) ++ more = b :: (tl ++ more) from rfl] at hpi ⊢
    simp only [split_items, hpi]
    have hd : (b :: (tl ++ more)).drop (h + l) = more := by
      rw [← hlen, ← List.cons_append, List.drop_left]
    have ht : (b :: (tl ++ more)).take (h + l) = b :: tl := by
      rw [← hlen, ← List.cons_append, List.take_left]
    have hnlt : ¬(b :: (tl ++ more)).length < h + l := by
      simp only [List.length_cons, List.length_append]
      rw [List.length_cons] at hlen
      omega
    rw [if_neg hnlt, hd, hmore, ht]

theorem split_items_concat : ∀ (its : List (List Nat)) (f : Nat),
    (∀ it ∈ its, rlp_item it) → its.length ≤ f →
    split_items f its.flatten = some its := by
  intro its
  induction its with
  | nil =>
    intro f _ _
    exact split_items_nil f
  | cons it rest ihits =>
    intro f hall hf
    cases f with
    | zero => simp at hf
    | succ f =>
      show split_items (f + 1) (it ++ rest.flatten) = some (it :: rest)
      exact split_items_cons f it _ rest (hall it (List.mem_cons_self it rest))
        (ihits f (fun x hx => hall x (List.mem_cons_of_mem it hx))
          (by rw [List.length_cons] at hf; omega))

/-- Core shape of a byte-string RLP encoding: a header of at most 9
bytes followed by the payload, whose header parses back to the payload
length, with a first byte below 0xc0. -/
theorem encode_bytes_core (b : List Nat) (hb : b.length < 256 ^ 8) :
    ∃ hd, rlp_encode_bytes b = hd ++ b ∧ hd.length ≤ 9 ∧
      payload_info (rlp_encode_bytes b) = some (hd.length, b.length) ∧
      (rlp_encode_bytes b).headD 0 < 0xc0 := by
  unfold rlp_encode_bytes
  by_cases h1 : b.length = 1 ∧ b.headD 0 < 0x80
  · rw [if_pos h1]
    obtain ⟨hl, hh⟩ := h1
    cases b with
    | nil => simp at hl
    | cons x tl =>
      cases tl with
      | nil =>
        refine ⟨[], by simp, by simp, ?_, by simp at hh ⊢; omega⟩
        show payload_info [x] = some (0, 1)
        simp only [payload_info]
        rw [if_pos (by simpa using hh)]
      | cons y tl2 => simp at hl
  · rw [if_neg h1]
    by_cases h2 : b.length ≤ 55
    · rw [if_pos h2]
      refine ⟨[0x80 + b.length], rfl, by simp, ?_, ?_⟩
      · show payload_info ((0x80 + b.length) :: b) = some (1, b.length)
        simp only [payload_info]
        rw [if_neg (by omega), if_pos (by omega), Nat.add_sub_cancel_left]
      · show (0x80 + b.length) < 0xc0
        omega
    · rw [if_neg h2]
      push_neg at h2
      have hblen : (be_bytes b.length).length ≤ 8 := be_bytes_len_le _ 8 hb
      have hbpos : 1 ≤ (be_bytes b.length).length := be_bytes_len_pos _ (by omega)
      refine ⟨(0xb7 + (be_bytes b.length).length) :: be_bytes b.length, rfl, ?_, ?_, ?_⟩
      · simp only [List.length_cons]
        omega
      · show payload_info ((0xb7 + (be_bytes b.length).length) ::
          (be_bytes b.length ++ b)) = some (((0xb7 + (be_bytes b.length).length) ::
            be_bytes b.length).length, b.length)
        simp only [payload_info]
        rw [if_neg (by omega), if_neg (by omega), if_pos (by omega)]
        rw [if_neg (by rw [List.length_append]; omega)]
        rw [Nat.add_sub_cancel_left, List.take_left, be_val_be_bytes]
        simp only [List.length_cons]
        rw [Nat.add_comm (be_bytes b.length).length 1]
      · show (0xb7 + (be_bytes b.length).length) < 0xc0
        omega

theorem rlp_item_encode_bytes (b : List Nat) (hb : b.length < 256 ^ 8) :
    rlp_item (rlp_encode_bytes b) := by
  obtain ⟨hd, henc, _, hpi, _⟩ := encode_bytes_core b hb
  exact ⟨hd.length, b.length, hpi, by rw [henc, List.length_append]⟩

theorem item_data_encode_bytes (b : List Nat) (hb : b.length < 256 ^ 8) :
    item_data (rlp_encode_bytes b) = some b := by
  obtain ⟨hd, henc, _, hpi, hfb⟩ := encode_bytes_core b hb
  have hne : rlp_encode_bytes b ≠ [] := by
    intro he
    rw [he] at hpi
    simp [payload_info] at hpi
  cases hit : rlp_encode_bytes b with
  | nil => exact absurd hit hne
  | cons b0 tl =>
    rw [hit] at hpi hfb henc
    show (if 0xc0 ≤ b0 then none
      else match payload_info (b0 :: tl) with
        | none => none
        | some (h, l) =>
          if (b0 :: tl).length < h + l then none else some (((b0 :: tl).drop h).take l)) =
        some b
    rw [if_neg (by simp at hfb; omega)]
    simp only [hpi]
    rw [if_neg (by rw [henc, List.length_append]; omega)]
    rw [henc, List.drop_left, List.take_length]

theorem rlp_encode_bytes_len (b : List Nat) (hb : b.length < 256 ^ 8) :
    b.length ≤ (rlp_encode_bytes b).length ∧
      (rlp_encode_bytes b).length ≤ b.length + 9 := by
  obtain ⟨hd, henc, hle, _, _⟩ := encode_bytes_core b hb
  rw [henc, List.length_append]
  omega

theorem rlp_encode_bytes_ne_nil (b : List Nat) (hb : b.length < 256 ^ 8) :
    rlp_encode_bytes b ≠ [] := by
  intro he
  have := congrArg List.length he
  obtain ⟨hd, henc, _, hpi, _⟩ := encode_bytes_core b hb
  rw [he] at hpi
  simp [payload_info] at hpi

/-- Core shape of an RLP list wrapping: header then payload, parsing
back to the payload length, with a first byte strictly above 0xc0. -/
theorem wrap_list_core (payload : List Nat) (hp : payload ≠ [])
    (hb : payload.length < 256 ^ 8) :
    ∃ hd, rlp_wrap_list payload = hd ++ payload ∧ hd.length ≤ 9 ∧
      payload_info (rlp_wrap_list payload) = some (hd.length, payload.length) ∧
      0xc0 < (rlp_wrap_list payload).headD 0 := by
  have hplen : 1 ≤ payload.length := List.length_pos.mpr hp
  unfold rlp_wrap_list
  by_cases h1 : payload.length ≤ 55
  · rw [if_pos h1]
    refine ⟨[0xc0 + payload.length], rfl, by simp, ?_, ?_⟩
    · show payload_info ((0xc0 + payload.length) :: payload) = some (1, payload.length)
      simp only [payload_info]
      rw [if_neg (by omega), if_neg (by omega), if_neg (by omega), if_pos (by omega),
        Nat.add_sub_cancel_left]
    · show 0xc0 < 0xc0 + payload.length
      omega
  · rw [if_neg h1]
    push_neg at h1
    have hbpos : 1 ≤ (be_bytes payload.length).length := be_bytes_len_pos _ (by omega)
    refine ⟨(0xf7 + (be_bytes payload.length).length) :: be_bytes payload.length,
      rfl, ?_, ?_, ?_⟩
    · simp only [List.length_cons]
      have := be_bytes_len_le payload.length 8 hb
      omega
    · show payload_info ((0xf7 + (be_bytes payload.length).length) ::
        (be_bytes payload.length ++ payload)) =
          some (((0xf7 + (be_bytes payload.length).length) ::
            be_bytes payload.length).length, payload.length)
      simp only [payload_info]
      rw [if_neg (by omega), if_neg (by omega), if_neg (by omega), if_neg (by omega)]
      rw [if_neg (by rw [List.length_append]; omega)]
      rw [Nat.add_sub_cancel_left, List.take_left, be_val_be_bytes]
      simp only [List.length_cons]
      rw [Nat.add_comm (be_bytes payload.length).length 1]
    · show 0xc0 < 0xf7 + (be_bytes payload.length).length
      omega

/-! ### Size bounds on node encodings -/

theorem MAXL_eq : MAXL = 1152921504606846976 := by norm_num [MAXL]

theorem pow256_8 : (256 : Nat) ^ 8 = 18446744073709551616 := by norm_num

theorem rlp_wrap_list_ne_nil (p : List Nat) : rlp_wrap_list p ≠ [] := by
  unfold rlp_wrap_list
  by_cases h : p.length ≤ 55
  · rw [if_pos h]
    simp
  · rw [if_neg h]
    simp

theorem rlp_encode_len_pos (n : Node) : 1 ≤ n.rlp_encode.length := by
  cases n with
  | null => rfl
  | leaf k v => exact List.length_pos.mpr (rlp_wrap_list_ne_nil _)
  | ext p nx => exact List.length_pos.mpr (rlp_wrap_list_ne_nil _)
  | branch ch v => exact List.length_pos.mpr (rlp_wrap_list_ne_nil _)

theorem inlined_or_hashed_le (e : List Nat) : (inlined_or_hashed e).length ≤ 32 := by
  unfold inlined_or_hashed
  by_cases h : e.length < 32
  · rw [if_pos h]
    omega
  · rw [if_neg h, keccak256_length]

theorem inlined_or_hashed_pos (e : List Nat) (he : 1 ≤ e.length) :
    1 ≤ (inlined_or_hashed e).length := by
  unfold inlined_or_hashed
  by_cases h : e.length < 32
  · rw [if_pos h]
    exact he
  · rw [if_neg h, keccak256_length]
    omega

theorem inlined_or_hashed_of_ge (e : List Nat) (h : 32 ≤ e.length) :
    inlined_or_hashed e = keccak256 e := by
  unfold inlined_or_hashed
  rw [if_neg (by omega)]

theorem inlined_or_hashed_of_lt (e : List Nat) (h : e.length < 32) :
    inlined_or_hashed e = e := by
  unfold inlined_or_hashed
  rw [if_pos h]

theorem compact_len_lt (k : List (Fin 16)) (f : Bool) (hkl : k.length ≤ MAXL) :
    (encode_compact k f).length < 256 ^ 8 := by
  rw [encode_compact_len, pow256_8, MAXL_eq] at *
  omega

theorem leaf_payload_bound (k : List (Fin 16)) (v : List Nat)
    (hkl : k.length ≤ MAXL) (hvl : v.length ≤ MAXL) :
    (rlp_encode_bytes (encode_compact k true) ++ rlp_encode_bytes v).length < 256 ^ 8 := by
  have h1 := rlp_encode_bytes_len (encode_compact k true) (compact_len_lt k true hkl)
  have h2 := rlp_encode_bytes_len v (by rw [pow256_8]; rw [MAXL_eq] at hvl; omega)
  rw [List.length_append, encode_compact_len] at *
  rw [pow256_8] at *
  rw [MAXL_eq] at *
  omega

theorem ext_payload_bound (p : List (Fin 16)) (nd : List Nat)
    (hpl : p.length ≤ MAXL) (hnd : nd.length ≤ 32) :
    (rlp_encode_bytes (encode_compact p false) ++ rlp_encode_bytes nd).length < 256 ^ 8 := by
  have h1 := rlp_encode_bytes_len (encode_compact p false) (compact_len_lt p false hpl)
  have h2 := rlp_encode_bytes_len nd (by rw [pow256_8]; omega)
  rw [List.length_append, encode_compact_len] at *
  rw [pow256_8] at *
  rw [MAXL_eq] at *
  omega

theorem branch_items_bound (ch : Fin 16 → Node) :
    (((List.finRange 16).map fun i =>
      rlp_encode_bytes (inlined_or_hashed (ch i).rlp_encode)).flatten).length ≤ 656 := by
  rw [List.length_flatten]
  have hb : ∀ x ∈ ((List.finRange 16).map fun i =>
      rlp_encode_bytes (inlined_or_hashed (ch i).rlp_encode)).map List.length, x ≤ 41 := by
    intro x hx
    simp only [List.mem_map] at hx
    obtain ⟨it, ⟨i, _, hit⟩, hlen⟩ := hx
    subst hit
    subst hlen
    have hle := inlined_or_hashed_le (ch i).rlp_encode
    have := rlp_encode_bytes_len (inlined_or_hashed (ch i).rlp_encode)
      (by rw [pow256_8]; omega)
    omega
  have := List.sum_le_card_nsmul _ 41 hb
  simp only [List.length_map, List.length_finRange, smul_eq_mul] at this
  omega

theorem branch_payload_bound (ch : Fin 16 → Node) (v : Option (List Nat))
    (hv : ∀ vv, v = some vv → vv.length ≤ MAXL) :
    ((((List.finRange 16).map fun i =>
      rlp_encode_bytes (inlined_or_hashed (ch i).rlp_encode)).flatten) ++
        (match v with
         | some vv => rlp_encode_bytes vv
         | none => [0x80])).length < 256 ^ 8 := by
  rw [List.length_append]
  have h1 := branch_items_bound ch
  cases v with
  | none =>
    rw [pow256_8]
    simp only [List.length_cons, List.length_nil]
    omega
  | some vv =>
    have hvv := hv vv rfl
    have h2 := rlp_encode_bytes_len vv (by rw [pow256_8]; rw [MAXL_eq] at hvv; omega)
    simp only []
    rw [pow256_8]
    rw [MAXL_eq] at hvv
    omega

theorem dnode_decode_succ (f : Nat) (d : List Nat) :
    dnode_decode (f + 1) d =
      (match d with
      | [] => none
      | b :: _ =>
        if b = 0xc0 ∨ b = 0x80 then some .null
        else if b < 0xc0 then none
        else
          match payload_info d with
          | none => none
          | some (h, l) =>
            if d.length < h + l then none
            else
              match split_items d.length ((d.drop h).take l) with
              | none => none
              | some items =>
                if items.length = 2 then
                  match item_data (items.getD 0 []) with
                  | none => none
                  | some path =>
                    if path = [] then none
                    else if (path.headD 0 >>> 4) &&& 0x2 ≠ 0 then
                      match item_data (items.getD 1 []) with
                      | none => none
                      | some value => some (.leaf (decode_compact path) value)
                    else
                      match item_data (items.getD 1 []) with
                      | none => none
                      | some next_data =>
                        if next_data.length = 32 then
                          some (.ext (decode_compact path) .null)
                        else
                          match dnode_decode f next_data with
                          | none => none
                          | some nx => some (.ext (decode_compact path) nx)
                else if items.length = 17 then
                  match (items.take 16).mapM (fun it =>
                    match item_data it with
                    | none => none
                    | some cd =>
                      if cd = [] then some DNode.null
                      else if cd.length = 32 then some DNode.null
                      else dnode_decode f cd) with
                  | none => none
                  | some cs =>
                    match item_data (items.getD 16 []) with
                    | none => none
                    | some vd =>
                      some (.branch (fun i => cs.getD i.val .null)
                        (if vd = [] then none else some vd))
                else none) := rfl

theorem mapM_map_eq {α β γ : Type} (g : α → Option β) (e : γ → α) (gf : γ → β) :
    ∀ (l : List γ), (∀ x ∈ l, g (e x) = some (gf x)) →
    (l.map e).mapM g = some (l.map gf) := by
  intro l
  induction l with
  | nil =>
    intro _
    rfl
  | cons x rest ihl =>
    intro hall
    rw [List.map_cons, List.map_cons, List.mapM_cons,
      hall x (List.mem_cons_self x rest), ihl (fun y hy => hall y (List.mem_cons_of_mem x hy))]
    rfl

theorem getD_append_length {α : Type} : ∀ (l : List α) (x : α) (l' : List α) (d : α),
    (l ++ (x :: l')).getD l.length d = x := by
  intro l
  induction l with
  | nil =>
    intro x l' d
    rfl
  | cons a rest ihl =>
    intro x l' d
    exact ihl x l' d

theorem flatten_length_ge : ∀ its : List (List Nat),
    (∀ it ∈ its, it ≠ []) → its.length ≤ its.flatten.length := by
  intro its
  induction its with
  | nil =>
    intro _
    simp
  | cons it rest ihits =>
    intro hall
    rw [List.flatten_cons, List.length_append, List.length_cons]
    have h1 : 1 ≤ it.length :=
      List.length_pos.mpr (hall it (List.mem_cons_self it rest))
    have h2 := ihits (fun x hx => hall x (List.mem_cons_of_mem it hx))
    omega

theorem rlp_item_ne_nil {it : List Nat} (h : rlp_item it) : it ≠ [] := by
  obtain ⟨hh, ll, hp, _⟩ := h
  intro he
  rw [he] at hp
  simp [payload_info] at hp

/-- One unfolding of `dnode_decode` on a wrapped list of complete
items: the header parses away and `split_items` recovers the items. -/
theorem dnode_decode_wrap (f : Nat) (its : List (List Nat))
    (hne : its.flatten ≠ []) (hb : its.flatten.length < 256 ^ 8)
    (hitems : ∀ it ∈ its, rlp_item it) :
    dnode_decode (f + 1) (rlp_wrap_list its.flatten) =
      (if its.length = 2 then
        match item_data (its.getD 0 []) with
        | none => none
        | some path =>
          if path = [] then none
          else if (path.headD 0 >>> 4) &&& 0x2 ≠ 0 then
            match item_data (its.getD 1 []) with
            | none => none
            | some value => some (.leaf (decode_compact path) value)
          else
            match item_data (its.getD 1 []) with
            | none => none
            | some next_data =>
              if next_data.length = 32 then
                some (.ext (decode_compact path) .null)
              else
                match dnode_decode f next_data with
                | none => none
                | some nx => some (.ext (decode_compact path) nx)
      else if its.length = 17 then
        match (its.take 16).mapM (fun it =>
          match item_data it with
          | none => none
          | some cd =>
            if cd = [] then some DNode.null
            else if cd.length = 32 then some DNode.null
            else dnode_decode f cd) with
        | none => none
        | some cs =>
          match item_data (its.getD 16 []) with
          | none => none
          | some vd =>
            some (.branch (fun i => cs.getD i.val .null)
              (if vd = [] then none else some vd))
      else none) := by
  obtain ⟨hd, henc, hhd9, hpi, hfb⟩ := wrap_list_core its.flatten hne hb
  have hcnt : its.length ≤ its.flatten.length :=
    flatten_length_ge its (fun it hit => rlp_item_ne_nil (hitems it hit))
  cases henc_c : rlp_wrap_list its.flatten with
  | nil => exact absurd henc_c (rlp_wrap_list_ne_nil _)
  | cons b0 tl =>
    rw [henc_c] at hpi hfb henc
    have hlen : (b0 :: tl).length = hd.length + its.flatten.length := by
      rw [henc, List.length_append]
    have hb0 : 0xc0 < b0 := by simpa using hfb
    rw [dnode_decode_succ]
    simp only [hpi]
    rw [if_neg (by omega), if_neg (by omega), if_neg (by omega)]
    have hdt : ((b0 :: tl).drop hd.length).take its.flatten.length = its.flatten := by
      rw [henc, List.drop_left, List.take_length]
    rw [hdt]
    have hsplit : split_items (b0 :: tl).length its.flatten = some its :=
      split_items_concat its _ hitems (by omega)
    simp only [hsplit]

theorem wrap_list_len_ge (p : List Nat) : 1 + p.length ≤ (rlp_wrap_list p).length := by
  unfold rlp_wrap_list
  by_cases h : p.length ≤ 55
  · rw [if_pos h]
    simp only [List.length_cons]
    omega
  · rw [if_neg h]
    simp only [List.length_cons, List.length_append]
    omega

theorem member_length_le_flatten : ∀ (its : List (List Nat)) (it : List Nat),
    it ∈ its → it.length ≤ its.flatten.length := by
  intro its
  induction its with
  | nil =>
    intro it hit
    simp at hit
  | cons a rest ihits =>
    intro it hit
    rw [List.flatten_cons, List.length_append]
    rcases List.mem_cons.mp hit with he | hm
    · subst he
      omega
    · have := ihits it hm
      omega

theorem getD_finRange_map {β : Type} (g : Fin 16 → β) (d : β) (i : Fin 16) :
    ((List.finRange 16).map g).getD i.val d = g i := by
  fin_cases i <;> rfl

theorem rlp_encode_bytes_nil : rlp_encode_bytes [] = [0x80] := rfl

theorem getD_append_len {α : Type} (l : List α) (x : α) (l' : List α) (d : α)
    (n : Nat) (h : l.length = n) : (l ++ (x :: l')).getD n d = x := by
  subst h
  exact getD_append_length l x l' d

/-- Decoding one Branch encoding whose value slot holds the plain byte
string `vb` (an absent value is encoded as `0x80`, i.e. the encoding of
`[]`). -/
theorem branch_decode_core (f : Nat) (ch : Fin 16 → Node) (vb : List Nat)
    (ihch : ∀ i : Fin 16, ∀ g : Nat, (ch i).rlp_encode.length < g →
      dnode_decode g (ch i).rlp_encode = some (dview (ch i)))
    (hvb : vb.length ≤ MAXL)
    (hf : (rlp_wrap_list ((((List.finRange 16).map fun i =>
      rlp_encode_bytes (inlined_or_hashed (ch i).rlp_encode)) :
        List (List Nat)).flatten ++ rlp_encode_bytes vb)).length < f + 1) :
    dnode_decode (f + 1) (rlp_wrap_list ((((List.finRange 16).map fun i =>
      rlp_encode_bytes (inlined_or_hashed (ch i).rlp_encode)) :
        List (List Nat)).flatten ++ rlp_encode_bytes vb)) =
      some (DNode.branch
        (fun i => if 32 ≤ (ch i).rlp_encode.length then DNode.null else dview (ch i))
        (if vb = [] then none else some vb)) := by
  have hvb8 : vb.length < 256 ^ 8 := by
    rw [pow256_8]
    rw [MAXL_eq] at hvb
    omega
  have hflat : ((((List.finRange 16).map fun i =>
      rlp_encode_bytes (inlined_or_hashed (ch i).rlp_encode)) ++
        [rlp_encode_bytes vb]) : List (List Nat)).flatten =
      (((List.finRange 16).map fun i =>
        rlp_encode_bytes (inlined_or_hashed (ch i).rlp_encode)) :
          List (List Nat)).flatten ++ rlp_encode_bytes vb := by
    rw [List.flatten_append]
    simp
  rw [← hflat] at hf ⊢
  have hits : ∀ it ∈ ((((List.finRange 16).map fun i =>
      rlp_encode_bytes (inlined_or_hashed (ch i).rlp_encode)) ++
        [rlp_encode_bytes vb]) : List (List Nat)), rlp_item it := by
    intro it hit
    rcases List.mem_append.mp hit with h16 | hv1
    · simp only [List.mem_map] at h16
      obtain ⟨i, _, hit_eq⟩ := h16
      subst hit_eq
      refine rlp_item_encode_bytes _ ?_
      have := inlined_or_hashed_le (ch i).rlp_encode
      rw [pow256_8]
      omega
    · have he : it = rlp_encode_bytes vb := by simpa using hv1
      rw [he]
      exact rlp_item_encode_bytes vb hvb8
  have hlen_its : ((((List.finRange 16).map fun i =>
      rlp_encode_bytes (inlined_or_hashed (ch i).rlp_encode)) ++
        [rlp_encode_bytes vb]) : List (List Nat)).length = 17 := by
    rw [List.length_append, List.length_map, List.length_finRange]
    rfl
  have hne : ((((List.finRange 16).map fun i =>
      rlp_encode_bytes (inlined_or_hashed (ch i).rlp_encode)) ++
        [rlp_encode_bytes vb]) : List (List Nat)).flatten ≠ [] := by
    intro he
    have hgz := flatten_length_ge _ (fun it hit => rlp_item_ne_nil (hits it hit))
    rw [he, hlen_its] at hgz
    simp at hgz
  have hb : ((((List.finRange 16).map fun i =>
      rlp_encode_bytes (inlined_or_hashed (ch i).rlp_encode)) ++
        [rlp_encode_bytes vb]) : List (List Nat)).flatten.length < 256 ^ 8 := by
    rw [hflat, List.length_append]
    have h1 := branch_items_bound ch
    have h2 := rlp_encode_bytes_len vb hvb8
    rw [pow256_8] at *
    rw [MAXL_eq] at hvb
    omega
  rw [dnode_decode_wrap f _ hne hb hits]
  rw [if_neg (by rw [hlen_its]; omega), if_pos hlen_its]
  have htake : ((((List.finRange 16).map fun i =>
      rlp_encode_bytes (inlined_or_hashed (ch i).rlp_encode)) ++
        [rlp_encode_bytes vb]) : List (List Nat)).take 16 =
      ((List.finRange 16).map fun i =>
        rlp_encode_bytes (inlined_or_hashed (ch i).rlp_encode)) :=
    List.take_left' (by rw [List.length_map, List.length_finRange])
  rw [htake]
  have hfuel_child : ∀ i : Fin 16, (ch i).rlp_encode.length < 32 →
      (ch i).rlp_encode.length < f := by
    intro i hilt
    have h1 := wrap_list_len_ge ((((List.finRange 16).map fun j =>
      rlp_encode_bytes (inlined_or_hashed (ch j).rlp_encode)) ++
        [rlp_encode_bytes vb]) : List (List Nat)).flatten
    have h2 : (ch i).rlp_encode.length ≤
        (rlp_encode_bytes (inlined_or_hashed (ch i).rlp_encode)).length := by
      rw [inlined_or_hashed_of_lt _ hilt]
      exact (rlp_encode_bytes_len _ (by rw [pow256_8]; omega)).1
    have h3 : (rlp_encode_bytes (inlined_or_hashed (ch i).rlp_encode)).length ≤
        ((((List.finRange 16).map fun j =>
          rlp_encode_bytes (inlined_or_hashed (ch j).rlp_encode)) ++
            [rlp_encode_bytes vb]) : List (List Nat)).flatten.length := by
      refine member_length_le_flatten _ _ ?_
      refine List.mem_append_left _ ?_
      exact List.mem_map.mpr ⟨i, List.mem_finRange i, rfl⟩
    omega
  have hper : ∀ i ∈ List.finRange 16, (fun it =>
      match item_data it with
      | none => none
      | some cd =>
        if cd = [] then some DNode.null
        else if cd.length = 32 then some DNode.null
        else dnode_decode f cd)
      (rlp_encode_bytes (inlined_or_hashed (ch i).rlp_encode)) =
      some (if 32 ≤ (ch i).rlp_encode.length then DNode.null else dview (ch i)) := by
    intro i _
    have hbd : (inlined_or_hashed (ch i).rlp_encode).length < 256 ^ 8 := by
      have := inlined_or_hashed_le (ch i).rlp_encode
      rw [pow256_8]
      omega
    show (match item_data (rlp_encode_bytes (inlined_or_hashed (ch i).rlp_encode)) with
      | none => none
      | some cd =>
        if cd = [] then some DNode.null
        else if cd.length = 32 then some DNode.null
        else dnode_decode f cd) = _
    simp only [item_data_encode_bytes _ hbd]
    have hcd_ne : inlined_or_hashed (ch i).rlp_encode ≠ [] := by
      intro he
      have := inlined_or_hashed_pos (ch i).rlp_encode (rlp_encode_len_pos (ch i))
      rw [he] at this
      simp at this
    rw [if_neg hcd_ne]
    by_cases h32 : 32 ≤ (ch i).rlp_encode.length
    · have h32x : (inlined_or_hashed (ch i).rlp_encode).length = 32 := by
        rw [inlined_or_hashed_of_ge _ h32, keccak256_length]
      rw [if_pos h32x, if_pos h32]
    · push_neg at h32
      rw [inlined_or_hashed_of_lt _ h32]
      rw [if_neg (by omega)]
      rw [ihch i f (hfuel_child i h32)]
      rw [if_neg (by omega)]
  have hM := mapM_map_eq (fun it =>
      match item_data it with
      | none => none
      | some cd =>
        if cd = [] then some DNode.null
        else if cd.length = 32 then some DNode.null
        else dnode_decode f cd)
    (fun i => rlp_encode_bytes (inlined_or_hashed (ch i).rlp_encode))
    (fun i => if 32 ≤ (ch i).rlp_encode.length then DNode.null else dview (ch i))
    (List.finRange 16) hper
  rw [hM]
  have hg16 : ((((List.finRange 16).map fun i =>
      rlp_encode_bytes (inlined_or_hashed (ch i).rlp_encode)) ++
        [rlp_encode_bytes vb]) : List (List Nat)).getD 16 [] = rlp_encode_bytes vb :=
    getD_append_len _ _ _ _ 16 (by rw [List.length_map, List.length_finRange])
  rw [hg16]
  simp only [item_data_encode_bytes vb hvb8]
  have hchildren : (fun i : Fin 16 => (((List.finRange 16).map fun j =>
      if 32 ≤ (ch j).rlp_encode.length then DNode.null else dview (ch j)) :
        List DNode).getD i.val DNode.null) =
      (fun i => if 32 ≤ (ch i).rlp_encode.length then DNode.null else dview (ch i)) :=
    funext fun i => getD_finRange_map _ _ i
  rw [hchildren]

/-- Decoding inverts encoding: `Node::decode` applied to
`rlp::encode(&node)` recovers the `dview` of the node. -/
theorem dnode_decode_rlp : ∀ (n : Node), entries_ok n → ∀ (f : Nat),
    n.rlp_encode.length < f → dnode_decode f n.rlp_encode = some (dview n) := by
  intro n
  induction n with
  | null =>
    intro _ f hf
    cases f with
    | zero => omega
    | succ f => rfl
  | leaf k v =>
    intro hok f hf
    obtain ⟨hv, hvl, hkl⟩ := hok
    have hckb : (encode_compact k true).length < 256 ^ 8 := compact_len_lt k true hkl
    have hvb : v.length < 256 ^ 8 := by
      rw [pow256_8]
      rw [MAXL_eq] at hvl
      omega
    have hflat : ([rlp_encode_bytes (encode_compact k true),
        rlp_encode_bytes v] : List (List Nat)).flatten =
        rlp_encode_bytes (encode_compact k true) ++ rlp_encode_bytes v := by
      simp
    have henc : Node.rlp_encode (Node.leaf k v) =
        rlp_wrap_list ([rlp_encode_bytes (encode_compact k true),
          rlp_encode_bytes v] : List (List Nat)).flatten := by
      rw [hflat]
      rfl
    rw [henc] at hf ⊢
    cases f with
    | zero => omega
    | succ f =>
      have hits : ∀ it ∈ ([rlp_encode_bytes (encode_compact k true),
          rlp_encode_bytes v] : List (List Nat)), rlp_item it := by
        intro it hit
        rcases List.mem_cons.mp hit with he | hit2
        · subst he
          exact rlp_item_encode_bytes _ hckb
        · rcases List.mem_cons.mp hit2 with he | hit3
          · subst he
            exact rlp_item_encode_bytes _ hvb
          · simp at hit3
      have hne : ([rlp_encode_bytes (encode_compact k true),
          rlp_encode_bytes v] : List (List Nat)).flatten ≠ [] := by
        rw [hflat]
        intro he
        exact rlp_encode_bytes_ne_nil _ hckb (List.append_eq_nil.mp he).1
      have hb : ([rlp_encode_bytes (encode_compact k true),
          rlp_encode_bytes v] : List (List Nat)).flatten.length < 256 ^ 8 := by
        rw [hflat]
        exact leaf_payload_bound k v hkl hvl
      rw [dnode_decode_wrap f _ hne hb hits]
      rw [if_pos (show ([rlp_encode_bytes (encode_compact k true),
        rlp_encode_bytes v] : List (List Nat)).length = 2 from rfl)]
      have hg0 : ([rlp_encode_bytes (encode_compact k true),
          rlp_encode_bytes v] : List (List Nat)).getD 0 [] =
          rlp_encode_bytes (encode_compact k true) := rfl
      have hg1 : ([rlp_encode_bytes (encode_compact k true),
          rlp_encode_bytes v] : List (List Nat)).getD 1 [] = rlp_encode_bytes v := rfl
      rw [hg0, hg1]
      simp only [item_data_encode_bytes (encode_compact k true) hckb,
        item_data_encode_bytes v hvb]
      rw [if_neg (encode_compact_ne_nil k true), if_pos (compact_flag_true k),
        decode_encode_compact]
      rfl
  | ext p nx ihnx =>
    intro hok f hf
    obtain ⟨hpl, hnxok⟩ := hok
    have hcpb : (encode_compact p false).length < 256 ^ 8 := compact_len_lt p false hpl
    have hndb : (inlined_or_hashed nx.rlp_encode).length < 256 ^ 8 := by
      have := inlined_or_hashed_le nx.rlp_encode
      rw [pow256_8]
      omega
    have hflat : ([rlp_encode_bytes (encode_compact p false),
        rlp_encode_bytes (inlined_or_hashed nx.rlp_encode)] : List (List Nat)).flatten =
        rlp_encode_bytes (encode_compact p false) ++
          rlp_encode_bytes (inlined_or_hashed nx.rlp_encode) := by
      simp
    have henc : Node.rlp_encode (Node.ext p nx) =
        rlp_wrap_list ([rlp_encode_bytes (encode_compact p false),
          rlp_encode_bytes (inlined_or_hashed nx.rlp_encode)] : List (List Nat)).flatten := by
      rw [hflat]
      rfl
    rw [henc] at hf ⊢
    cases f with
    | zero => omega
    | succ f =>
      have hits : ∀ it ∈ ([rlp_encode_bytes (encode_compact p false),
          rlp_encode_bytes (inlined_or_hashed nx.rlp_encode)] : List (List Nat)),
          rlp_item it := by
        intro it hit
        rcases List.mem_cons.mp hit with he | hit2
        · subst he
          exact rlp_item_encode_bytes _ hcpb
        · rcases List.mem_cons.mp hit2 with he | hit3
          · subst he
            exact rlp_item_encode_bytes _ hndb
          · simp at hit3
      have hne : ([rlp_encode_bytes (encode_compact p false),
          rlp_encode_bytes (inlined_or_hashed nx.rlp_encode)] :
            List (List Nat)).flatten ≠ [] := by
        rw [hflat]
        intro he
        exact rlp_encode_bytes_ne_nil _ hcpb (List.append_eq_nil.mp he).1
      have hb : ([rlp_encode_bytes (encode_compact p false),
          rlp_encode_bytes (inlined_or_hashed nx.rlp_encode)] :
            List (List Nat)).flatten.length < 256 ^ 8 := by
        rw [hflat]
        exact ext_payload_bound p _ hpl (inlined_or_hashed_le _)
      have hfuel : (rlp_wrap_list ([rlp_encode_bytes (encode_compact p false),
          rlp_encode_bytes (inlined_or_hashed nx.rlp_encode)] :
            List (List Nat)).flatten).length ≤ f := by
        omega
      rw [dnode_decode_wrap f _ hne hb hits]
      rw [if_pos (show ([rlp_encode_bytes (encode_compact p false),
        rlp_encode_bytes (inlined_or_hashed nx.rlp_encode)] :
          List (List Nat)).length = 2 from rfl)]
      have hg0 : ([rlp_encode_bytes (encode_compact p false),
          rlp_encode_bytes (inlined_or_hashed nx.rlp_encode)] : List (List Nat)).getD 0 [] =
          rlp_encode_bytes (encode_compact p false) := rfl
      have hg1 : ([rlp_encode_bytes (encode_compact p false),
          rlp_encode_bytes (inlined_or_hashed nx.rlp_encode)] : List (List Nat)).getD 1 [] =
          rlp_encode_bytes (inlined_or_hashed nx.rlp_encode) := rfl
      rw [hg0, hg1]
      simp only [item_data_encode_bytes (encode_compact p false) hcpb,
        item_data_encode_bytes (inlined_or_hashed nx.rlp_encode) hndb]
      rw [if_neg (encode_compact_ne_nil p false)]
      rw [if_neg (show ¬(((encode_compact p false).headD 0 >>> 4) &&& 0x2 ≠ 0) from
        fun hc => hc (compact_flag_false p))]
      by_cases h32 : 32 ≤ nx.rlp_encode.length
      · have h32' : (inlined_or_hashed nx.rlp_encode).length = 32 := by
          rw [inlined_or_hashed_of_ge _ h32, keccak256_length]
        rw [if_pos h32', decode_encode_compact]
        show _ = some (DNode.ext (p.map Fin.val)
          (if 32 ≤ nx.rlp_encode.length then DNode.null else dview nx))
        rw [if_pos h32]
      · push_neg at h32
        have hior : inlined_or_hashed nx.rlp_encode = nx.rlp_encode :=
          inlined_or_hashed_of_lt _ h32
        rw [hior]
        rw [if_neg (by omega)]
        have hchild_lt : nx.rlp_encode.length < f := by
          have h1 := wrap_list_len_ge ([rlp_encode_bytes (encode_compact p false),
            rlp_encode_bytes (inlined_or_hashed nx.rlp_encode)] :
              List (List Nat)).flatten
          have h2 : nx.rlp_encode.length ≤
              (rlp_encode_bytes (inlined_or_hashed nx.rlp_encode)).length := by
            rw [hior]
            exact (rlp_encode_bytes_len _ (by rw [hior] at hndb; exact hndb)).1
          have h3 : (rlp_encode_bytes (inlined_or_hashed nx.rlp_encode)).length ≤
              ([rlp_encode_bytes (encode_compact p false),
                rlp_encode_bytes (inlined_or_hashed nx.rlp_encode)] :
                  List (List Nat)).flatten.length :=
            member_length_le_flatten _ _ (by simp)
          omega
        rw [ihnx hnxok f hchild_lt, decode_encode_compact]
        show _ = some (DNode.ext (p.map Fin.val)
          (if 32 ≤ nx.rlp_encode.length then DNode.null else dview nx))
        rw [if_neg (by omega)]
  | branch ch v ihch =>
    intro hok f hf
    obtain ⟨hch, hval⟩ := hok
    have ihch2 : ∀ i : Fin 16, ∀ g : Nat, (ch i).rlp_encode.length < g →
        dnode_decode g (ch i).rlp_encode = some (dview (ch i)) :=
      fun i g hg => ihch i (hch i) g hg
    cases v with
    | none =>
      have henc : Node.rlp_encode (Node.branch ch none) =
          rlp_wrap_list ((((List.finRange 16).map fun i =>
            rlp_encode_bytes (inlined_or_hashed (ch i).rlp_encode)) :
              List (List Nat)).flatten ++ rlp_encode_bytes []) := by
        rw [rlp_encode_bytes_nil]
        rfl
      rw [henc] at hf ⊢
      cases f with
      | zero => omega
      | succ f =>
        rw [branch_decode_core f ch [] ihch2 (by simp) hf]
        rw [if_pos rfl]
        rfl
    | some vv =>
      have henc : Node.rlp_encode (Node.branch ch (some vv)) =
          rlp_wrap_list ((((List.finRange 16).map fun i =>
            rlp_encode_bytes (inlined_or_hashed (ch i).rlp_encode)) :
              List (List Nat)).flatten ++ rlp_encode_bytes vv) := rfl
      rw [henc] at hf ⊢
      cases f with
      | zero => omega
      | succ f =>
        rw [branch_decode_core f ch vv ihch2 (hval vv rfl).2 hf]
        rw [if_neg (hval vv rfl).1]
        show _ = some (dview (Node.branch ch (some vv)))
        cases vv with
        | nil => exact absurd rfl (hval [] rfl).1
        | cons a as => rfl

/-! ### Proof verification walks the same path as lookup -/

theorem get_proof_at_head (t : Node) (nib : List (Fin 16)) :
    ∃ tl, get_proof_at t nib = Node.rlp_encode t :: tl := by
  cases t with
  | null => exact ⟨[], rfl⟩
  | leaf k v => exact ⟨[], rfl⟩
  | ext p nx =>
    exact ⟨(if p.length ≤ nib.length ∧ nib.take p.length = p then
      get_proof_at nx (nib.drop p.length) else []), rfl⟩
  | branch ch v =>
    cases nib with
    | nil => exact ⟨[], rfl⟩
    | cons n0 rest => exact ⟨get_proof_at (ch n0) rest, rfl⟩

theorem get_proof_at_length_pos (t : Node) (nib : List (Fin 16)) :
    1 ≤ (get_proof_at t nib).length := by
  obtain ⟨tl, htl⟩ := get_proof_at_head t nib
  rw [htl]
  simp

/-- One step of `verify_proof_recursive` on an honestly encoded node at
the current index: the guards pass, the node decodes to its `dview`. -/
theorem verify_step (fuel : Nat) (nibbles : List Nat) (pre tail' : List (List Nat))
    (t : Node) (hok : entries_ok t) :
    verify_proof_recursive (fuel + 1) nibbles
      (pre ++ (Node.rlp_encode t :: tail')) pre.length =
      (match dview t with
       | .null => none
       | .leaf k v => if k = nibbles then some v else none
       | .ext p _ =>
           if nibbles.length < p.length ∨ nibbles.take p.length ≠ p then none
           else if (pre ++ (Node.rlp_encode t :: tail')).length ≤ pre.length + 1 then none
           else verify_proof_recursive fuel (nibbles.drop p.length)
             (pre ++ (Node.rlp_encode t :: tail')) (pre.length + 1)
       | .branch _ v =>
           if nibbles = [] then v
           else if (pre ++ (Node.rlp_encode t :: tail')).length ≤ pre.length + 1 then none
           else verify_proof_recursive fuel (nibbles.drop 1)
             (pre ++ (Node.rlp_encode t :: tail')) (pre.length + 1)) := by
  have hguard : ¬(pre ++ (Node.rlp_encode t :: tail')).length ≤ pre.length := by
    rw [List.length_append, List.length_cons]
    omega
  have hcur : (pre ++ (Node.rlp_encode t :: tail')).getD pre.length [] =
      Node.rlp_encode t := getD_append_length _ _ _ _
  simp only [verify_proof_recursive]
  rw [if_neg hguard]
  simp only [hcur]
  rw [dnode_decode_rlp t hok _ (Nat.lt_succ_self _)]

theorem map_fin_val_inj {a b : List (Fin 16)} (h : a.map Fin.val = b.map Fin.val) :
    a = b :=
  List.map_injective_iff.mpr Fin.val_injective h

/-- Verifying an honest proof slice reproduces the lookup result:
`verify_proof_recursive` walking `get_proof_at t nib` (embedded at any
position of a larger proof list) returns `get_at t nib`. -/
theorem verify_get_master : ∀ (t : Node) (fuel : Nat) (nib : List (Fin 16))
    (pre rest : List (List Nat)), entries_ok t →
    (get_proof_at t nib).length + rest.length < fuel →
    verify_proof_recursive fuel (nib.map Fin.val)
      (pre ++ (get_proof_at t nib ++ rest)) pre.length = get_at t nib := by
  intro t
  induction t with
  | null =>
    intro fuel nib pre rest _ hfuel
    cases fuel with
    | zero => omega
    | succ fuel =>
      show verify_proof_recursive (fuel + 1) (nib.map Fin.val)
        (pre ++ (Node.rlp_encode Node.null :: rest)) pre.length = get_at Node.null nib
      rw [verify_step fuel _ pre rest Node.null trivial]
      rfl
  | leaf k v =>
    intro fuel nib pre rest hok hfuel
    cases fuel with
    | zero => omega
    | succ fuel =>
      show verify_proof_recursive (fuel + 1) (nib.map Fin.val)
        (pre ++ (Node.rlp_encode (Node.leaf k v) :: rest)) pre.length =
          get_at (Node.leaf k v) nib
      rw [verify_step fuel _ pre rest (Node.leaf k v) hok]
      show (if k.map Fin.val = nib.map Fin.val then some v else none) =
        get_at (Node.leaf k v) nib
      by_cases hk : k = nib
      · rw [hk, if_pos rfl, get_at_leaf, if_pos rfl]
      · rw [if_neg (fun hc => hk (map_fin_val_inj hc)), get_at_leaf, if_neg hk]
  | ext p nx ihnx =>
    intro fuel nib pre rest hok hfuel
    obtain ⟨hpl, hnxok⟩ := hok
    by_cases hcond : p.length ≤ nib.length ∧ nib.take p.length = p
    · have hgpa : get_proof_at (Node.ext p nx) nib =
          Node.rlp_encode (Node.ext p nx) ::
            get_proof_at nx (nib.drop p.length) := by
        simp only [get_proof_at]
        rw [if_pos hcond]
      rw [hgpa] at hfuel ⊢
      rw [show (Node.rlp_encode (Node.ext p nx) ::
        get_proof_at nx (nib.drop p.length)) ++ rest =
          Node.rlp_encode (Node.ext p nx) ::
            (get_proof_at nx (nib.drop p.length) ++ rest) from rfl]
      cases fuel with
      | zero =>
        simp only [List.length_cons] at hfuel
        omega
      | succ fuel =>
        rw [verify_step fuel _ pre _ (Node.ext p nx) ⟨hpl, hnxok⟩]
        show (if (nib.map Fin.val).length < (p.map Fin.val).length ∨
            (nib.map Fin.val).take (p.map Fin.val).length ≠ p.map Fin.val then none
          else if (pre ++ (Node.rlp_encode (Node.ext p nx) ::
              (get_proof_at nx (nib.drop p.length) ++ rest))).length ≤ pre.length + 1
            then none
          else verify_proof_recursive fuel
            ((nib.map Fin.val).drop (p.map Fin.val).length)
            (pre ++ (Node.rlp_encode (Node.ext p nx) ::
              (get_proof_at nx (nib.drop p.length) ++ rest))) (pre.length + 1)) =
          get_at (Node.ext p nx) nib
        have hg1 : ¬((nib.map Fin.val).length < (p.map Fin.val).length ∨
            (nib.map Fin.val).take (p.map Fin.val).length ≠ p.map Fin.val) := by
          push_neg
          constructor
          · rw [List.length_map, List.length_map]
            omega
          · rw [List.length_map, ← List.map_take, hcond.2]
        rw [if_neg hg1]
        have hg2 : ¬(pre ++ (Node.rlp_encode (Node.ext p nx) ::
            (get_proof_at nx (nib.drop p.length) ++ rest))).length ≤ pre.length + 1 := by
          rw [List.length_append, List.length_cons, List.length_append]
          have := get_proof_at_length_pos nx (nib.drop p.length)
          omega
        rw [if_neg hg2]
        have hdrop : (nib.map Fin.val).drop (p.map Fin.val).length =
            (nib.drop p.length).map Fin.val := by
          rw [List.length_map, List.map_drop]
        have hregroup : pre ++ (Node.rlp_encode (Node.ext p nx) ::
            (get_proof_at nx (nib.drop p.length) ++ rest)) =
            (pre ++ [Node.rlp_encode (Node.ext p nx)]) ++
              (get_proof_at nx (nib.drop p.length) ++ rest) := by
          simp
        have hidx : pre.length + 1 = (pre ++ [Node.rlp_encode (Node.ext p nx)]).length := by
          simp
        rw [hdrop, hregroup, hidx]
        rw [ihnx fuel (nib.drop p.length) _ rest hnxok
          (by simp only [List.length_cons] at hfuel; omega)]
        rw [get_at_ext_pos _ _ _ hcond.2]
    · have hgpa : get_proof_at (Node.ext p nx) nib =
          [Node.rlp_encode (Node.ext p nx)] := by
        simp only [get_proof_at]
        rw [if_neg hcond]
      rw [hgpa] at hfuel ⊢
      cases fuel with
      | zero => omega
      | succ fuel =>
        rw [show ([Node.rlp_encode (Node.ext p nx)] : List (List Nat)) ++ rest =
          Node.rlp_encode (Node.ext p nx) :: rest from rfl]
        rw [verify_step fuel _ pre rest (Node.ext p nx) ⟨hpl, hnxok⟩]
        have htake_ne : nib.take p.length ≠ p := by
          by_cases hlen : nib.length < p.length
          · intro he
            have := congrArg List.length he
            rw [List.length_take] at this
            omega
          · push_neg at hcond hlen
            exact hcond hlen
        show (if (nib.map Fin.val).length < (p.map Fin.val).length ∨
            (nib.map Fin.val).take (p.map Fin.val).length ≠ p.map Fin.val then none
          else if (pre ++ (Node.rlp_encode (Node.ext p nx) :: rest)).length ≤
              pre.length + 1 then none
          else verify_proof_recursive fuel
            ((nib.map Fin.val).drop (p.map Fin.val).length)
            (pre ++ (Node.rlp_encode (Node.ext p nx) :: rest)) (pre.length + 1)) =
          get_at (Node.ext p nx) nib
        have hmt : (nib.map Fin.val).take (p.map Fin.val).length =
            (nib.take p.length).map Fin.val := by
          rw [List.length_map, List.map_take]
        rw [if_pos (Or.inr (by rw [hmt]; exact fun hc => htake_ne (map_fin_val_inj hc)))]
        rw [get_at_ext_neg _ _ _ htake_ne]
  | branch ch bv ihch =>
    intro fuel nib pre rest hok hfuel
    obtain ⟨hch, hval⟩ := hok
    cases nib with
    | nil =>
      have hgpa : get_proof_at (Node.branch ch bv) [] =
          [Node.rlp_encode (Node.branch ch bv)] := rfl
      rw [hgpa] at hfuel ⊢
      cases fuel with
      | zero => omega
      | succ fuel =>
        rw [show ([Node.rlp_encode (Node.branch ch bv)] : List (List Nat)) ++ rest =
          Node.rlp_encode (Node.branch ch bv) :: rest from rfl]
        rw [verify_step fuel _ pre rest (Node.branch ch bv) ⟨hch, hval⟩]
        cases bv with
        | none => rfl
        | some vv =>
          cases vv with
          | nil => exact absurd rfl (hval [] rfl).1
          | cons a as => rfl
    | cons n0 restn =>
      have hgpa : get_proof_at (Node.branch ch bv) (n0 :: restn) =
          Node.rlp_encode (Node.branch ch bv) :: get_proof_at (ch n0) restn := rfl
      rw [hgpa] at hfuel ⊢
      rw [show (Node.rlp_encode (Node.branch ch bv) ::
        get_proof_at (ch n0) restn) ++ rest =
          Node.rlp_encode (Node.branch ch bv) ::
            (get_proof_at (ch n0) restn ++ rest) from rfl]
      cases fuel with
      | zero =>
        simp only [List.length_cons] at hfuel
        omega
      | succ fuel =>
        rw [verify_step fuel _ pre _ (Node.branch ch bv) ⟨hch, hval⟩]
        show (if (n0.val :: restn.map Fin.val) = [] then
            (match bv with
             | some [] => none
             | x => x)
          else if (pre ++ (Node.rlp_encode (Node.branch ch bv) ::
              (get_proof_at (ch n0) restn ++ rest))).length ≤ pre.length + 1 then none
          else verify_proof_recursive fuel
            ((n0.val :: restn.map Fin.val).drop 1)
            (pre ++ (Node.rlp_encode (Node.branch ch bv) ::
              (get_proof_at (ch n0) restn ++ rest))) (pre.length + 1)) =
          get_at (Node.branch ch bv) (n0 :: restn)
        rw [if_neg (by simp)]
        have hg2 : ¬(pre ++ (Node.rlp_encode (Node.branch ch bv) ::
            (get_proof_at (ch n0) restn ++ rest))).length ≤ pre.length + 1 := by
          rw [List.length_append, List.length_cons, List.length_append]
          have := get_proof_at_length_pos (ch n0) restn
          omega
        rw [if_neg hg2]
        have hregroup : pre ++ (Node.rlp_encode (Node.branch ch bv) ::
            (get_proof_at (ch n0) restn ++ rest)) =
            (pre ++ [Node.rlp_encode (Node.branch ch bv)]) ++
              (get_proof_at (ch n0) restn ++ rest) := by
          simp
        have hidx : pre.length + 1 =
            (pre ++ [Node.rlp_encode (Node.branch ch bv)]).length := by
          simp
        rw [show ((n0.val :: restn.map Fin.val) : List Nat).drop 1 =
          restn.map Fin.val from rfl]
        rw [hregroup, hidx]
        rw [ihch n0 fuel restn _ rest (hch n0)
          (by simp only [List.length_cons] at hfuel; omega)]
        rw [get_at_branch_cons]

/-- Top-level honest-proof verification agrees with lookup. -/
theorem verify_proof_get (t : Node) (k : List (Fin 256)) (hok : entries_ok t) :
    verify_proof (root_hash t) k (get_proof t k) = get t k := by
  unfold verify_proof get_proof
  have hpos := get_proof_at_length_pos t (from_raw k false)
  have hne : get_proof_at t (from_raw k false) ≠ [] := by
    intro he
    rw [he] at hpos
    simp at hpos
  rw [if_neg hne]
  obtain ⟨tl, htl⟩ := get_proof_at_head t (from_raw k false)
  have hhash : compute_hash ((get_proof_at t (from_raw k false)).headD []) =
      root_hash t := by
    rw [htl]
    rfl
  rw [if_neg (fun hc => hc hhash)]
  have hm := verify_get_master t ((get_proof_at t (from_raw k false)).length + 1)
    (from_raw k false) [] [] hok (by simp)
  simp only [List.append_nil, List.nil_append, List.length_nil] at hm
  exact hm

theorem lookupLast_eq_none : ∀ (l : List (List (Fin 256) × List Nat))
    (k : List (Fin 256)), k ∉ l.map Prod.fst → lookupLast l k = none := by
  intro l
  induction l with
  | nil =>
    intro k _
    rfl
  | cons p rest ihl =>
    intro k hmem
    obtain ⟨k0, v0⟩ := p
    rw [List.map_cons, List.mem_cons] at hmem
    push_neg at hmem
    show (match lookupLast rest k with
      | some v => some v
      | none => if k = k0 then some v0 else none) = none
    rw [ihl k hmem.2, if_neg hmem.1]

theorem from_raw_nil (b : Bool) : from_raw [] b = [] := rfl

theorem insert_branch_nil_key (ch : Fin 16 → Node) (bv : Option (List Nat))
    (v : List Nat) : insert (Node.branch ch bv) [] v = Node.branch ch (some v) := by
  have h : insert_at ((from_raw [] false).length + (Node.branch ch bv).size + 1)
      (Node.branch ch bv) (from_raw [] false) v = some (Node.branch ch (some v)) := by
    simp [insert_at, from_raw]
  show (match insert_at ((from_raw [] false).length + (Node.branch ch bv).size + 1)
    (Node.branch ch bv) (from_raw [] false) v with
    | some t2 => t2
    | none => Node.branch ch bv) = Node.branch ch (some v)
  rw [h]

/-! ### Claim theorems -/

/-- C1: For every finite sequence of `insert(k,v)` operations performed on a
trie created by `new()`, `get(k)` returns the value of the most recent insert
with key `k` in the sequence, and `get(k')` returns `None` for every key `k'`
that was never inserted. -/
theorem claim_C1 (l : List (List (Fin 256) × List Nat)) (k : List (Fin 256)) :
    get (buildTrie l) k = lookupLast l k ∧
      (k ∉ l.map Prod.fst → get (buildTrie l) k = none) := by
  refine ⟨get_buildTrie l k, fun hmem => ?_⟩
  rw [get_buildTrie l k, lookupLast_eq_none l k hmem]

theorem claim_C1_witness :
    (([7] : List (Fin 256)) ∉ ([([0], [1]), ([0], [2])] :
      List (List (Fin 256) × List Nat)).map Prod.fst) ∧
      get (buildTrie [([0], [1]), ([0], [2])]) [7] = none :=
  ⟨by decide, (claim_C1 [([0], [1]), ([0], [2])] [7]).2 (by decide)⟩

/-- C2: `root_hash()` depends only on the key-to-value map currently stored:
two insertion sequences realising the same map (the same most-recent value
for every key) produce byte-identical root hashes. -/
theorem claim_C2 (l1 l2 : List (List (Fin 256) × List Nat))
    (h : ∀ k, lookupLast l1 k = lookupLast l2 k) :
    root_hash (buildTrie l1) = root_hash (buildTrie l2) := by
  rw [buildTrie_congr l1 l2 h]

theorem claim_C2_witness :
    (∀ k, lookupLast ([([0], [1]), ([1], [2])] : List (List (Fin 256) × List Nat)) k =
      lookupLast ([([1], [2]), ([0], [1])] : List (List (Fin 256) × List Nat)) k) ∧
      root_hash (buildTrie [([0], [1]), ([1], [2])]) =
        root_hash (buildTrie [([1], [2]), ([0], [1])]) := by
  have hsame : ∀ k, lookupLast ([([0], [1]), ([1], [2])] :
      List (List (Fin 256) × List Nat)) k =
      lookupLast ([([1], [2]), ([0], [1])] : List (List (Fin 256) × List Nat)) k := by
    intro k
    by_cases h0 : k = ([0] : List (Fin 256))
    · subst h0
      decide
    · by_cases h1 : k = ([1] : List (Fin 256))
      · subst h1
        decide
      · simp [lookupLast, h0, h1]
  exact ⟨hsame, claim_C2 _ _ hsame⟩

/-- C3: For every trie built by a sequence of inserts (with non-empty values
and machine-size-bounded keys and values, per spec §3) and every key `k`
present in it with value `v`, `verify_proof(root_hash(), k, get_proof(k))`
returns `Some v`. -/
theorem claim_C3 (l : List (List (Fin 256) × List Nat))
    (hl : ∀ p ∈ l, p.2 ≠ [] ∧ p.2.length ≤ MAXL ∧ 2 * p.1.length ≤ MAXL)
    (k : List (Fin 256)) (v : List Nat) (hget : get (buildTrie l) k = some v) :
    verify_proof (root_hash (buildTrie l)) k (get_proof (buildTrie l) k) = some v := by
  rw [verify_proof_get _ _ (entries_ok_buildTrie l hl), hget]

theorem claim_C3_witness :
    (∀ p ∈ ([([97], [5])] : List (List (Fin 256) × List Nat)),
      p.2 ≠ [] ∧ p.2.length ≤ MAXL ∧ 2 * p.1.length ≤ MAXL) ∧
    get (buildTrie [([97], [5])]) [97] = some [5] ∧
    verify_proof (root_hash (buildTrie [([97], [5])])) [97]
      (get_proof (buildTrie [([97], [5])]) [97]) = some [5] :=
  ⟨by decide, by decide, claim_C3 [([97], [5])] (by decide) [97] [5] (by decide)⟩

/-- C4: `root_hash()` equals Keccak-256 of the RLP encoding of the root node,
unconditionally — unlike `hash_or_raw`, the root is hashed even when its
encoding is shorter than 32 bytes; in particular the empty trie's root hash is
the Keccak-256 of the single byte `0x80`,
`56e81f171bcc55a6ff8345e692c0f86e5b48e01b996cadc001622fb5e363b421`. -/
theorem claim_C4 :
    (∀ t : Node, root_hash t = keccak256 t.rlp_encode) ∧
    Node.rlp_encode Node.null = [0x80] ∧
    (Node.rlp_encode Node.null).length < 32 ∧
    Node.hash_or_raw Node.null = Node.rlp_encode Node.null ∧
    root_hash Node.null =
      [0x56, 0xe8, 0x1f, 0x17, 0x1b, 0xcc, 0x55, 0xa6, 0xff, 0x83, 0x45, 0xe6,
       0x92, 0xc0, 0xf8, 0x6e, 0x5b, 0x48, 0xe0, 0x1b, 0x99, 0x6c, 0xad, 0xc0,
       0x01, 0x62, 0x2f, 0xb5, 0xe3, 0x63, 0xb4, 0x21] :=
  ⟨fun _ => rfl, rfl, by decide, by decide, by decide⟩

/-- C5: After every finite sequence of inserts starting from `new()`, the node
tree satisfies the canonical-form invariants (every Extension has a non-empty
prefix and a Branch child; every Branch has at least two occupancies; children
are indexed by their branching nibble by construction), and the root is Null
iff no insert has occurred. -/
theorem claim_C5 (l : List (List (Fin 256) × List Nat)) :
    canonical (buildTrie l) ∧ (buildTrie l = Node.null ↔ l = []) :=
  ⟨canonical_buildTrie l, buildTrie_eq_null_iff l⟩

/-- C6: For every nibble sequence `n` and boolean `f`, compact-decoding the
bytes produced by `compact_encode(n, f)` yields back exactly the nibble
sequence and the leaf flag. -/
theorem claim_C6 (n : List (Fin 16)) (f : Bool) :
    decode_compact (encode_compact n f) = n.map Fin.val ∧
      compact_is_leaf (encode_compact n f) = f :=
  ⟨decode_encode_compact n f, encode_compact_leaf_flag n f⟩

/-- C7: Honest proofs of absence verify as absent: for every trie built by a
sequence of inserts (values non-empty and machine-size-bounded, per spec §3)
and every key `k` with `get(k) = None`,
`verify_proof(root_hash(), k, get_proof(k))` returns `None`. -/
theorem claim_C7 (l : List (List (Fin 256) × List Nat))
    (hl : ∀ p ∈ l, p.2 ≠ [] ∧ p.2.length ≤ MAXL ∧ 2 * p.1.length ≤ MAXL)
    (k : List (Fin 256)) (hget : get (buildTrie l) k = none) :
    verify_proof (root_hash (buildTrie l)) k (get_proof (buildTrie l) k) = none := by
  rw [verify_proof_get _ _ (entries_ok_buildTrie l hl), hget]

theorem claim_C7_witness :
    (∀ p ∈ ([([97], [5])] : List (List (Fin 256) × List Nat)),
      p.2 ≠ [] ∧ p.2.length ≤ MAXL ∧ 2 * p.1.length ≤ MAXL) ∧
    get (buildTrie [([97], [5])]) [98] = none ∧
    verify_proof (root_hash (buildTrie [([97], [5])])) [98]
      (get_proof (buildTrie [([97], [5])]) [98]) = none :=
  ⟨by decide, by decide, claim_C7 [([97], [5])] (by decide) [98] (by decide)⟩

/-- C8: `verify_proof` returns `None` whenever its guards fail: an empty proof
list is rejected for every key, and a claimed root hash that differs from the
Keccak-256 of the first proof item makes verification fail for every key. -/
theorem claim_C8 :
    (∀ (root_h : List Nat) (k : List (Fin 256)), verify_proof root_h k [] = none) ∧
    (∀ (t : Node) (k : List (Fin 256)) (root_h : List Nat), root_h ≠ root_hash t →
      verify_proof root_h k (get_proof t k) = none) := by
  constructor
  · intro root_h k
    rfl
  · intro t k root_h hne
    unfold verify_proof get_proof
    have hpos := get_proof_at_length_pos t (from_raw k false)
    have hnil : get_proof_at t (from_raw k false) ≠ [] := by
      intro he
      rw [he] at hpos
      simp at hpos
    rw [if_neg hnil]
    obtain ⟨tl, htl⟩ := get_proof_at_head t (from_raw k false)
    have hhash : compute_hash ((get_proof_at t (from_raw k false)).headD []) =
        root_hash t := by
      rw [htl]
      rfl
    rw [if_pos (by rw [hhash]; exact fun he => hne he.symm)]

theorem claim_C8_witness :
    (([] : List Nat) ≠ root_hash Node.null) ∧
      verify_proof [] [] (get_proof Node.null []) = none :=
  ⟨by decide, claim_C8.2 Node.null [] [] (by decide)⟩

/-- C9: `verify_proof` does not re-check non-root proof items against the
inlined references of their parents: on a concrete two-key trie there is a
proof list whose second (non-root) item was not produced by `get_proof` — a
forged Leaf — on which `verify_proof` still returns `Some` of the forged
value instead of the stored one. -/
theorem claim_C9 :
    get (buildTrie [([97], [1]), ([98], [2])]) [97] = some [1] ∧
    ([0xc3, 0x31, 0x81, 0xFF] : List Nat) ≠
      (get_proof (buildTrie [([97], [1]), ([98], [2])]) [97]).getD 1 [] ∧
    verify_proof (root_hash (buildTrie [([97], [1]), ([98], [2])])) [97]
      [(buildTrie [([97], [1]), ([98], [2])]).rlp_encode,
        ([0xc3, 0x31, 0x81, 0xFF] : List Nat)] = some [0xFF] :=
  ⟨by decide, by decide, by decide⟩

/-- C10: `insert` and `get` are total for every byte-string key (including the
empty key) and every value, on every trie: the fuelled `insert_at` always
succeeds below its fuel bound, the fallback branch of `insert` is dead code,
and the empty key maps to the root Branch's value slot. -/
theorem claim_C10 :
    (∀ (f : Nat) (t : Node) (n : List (Fin 16)) (v : List Nat),
      n.length + t.size < f → (insert_at f t n v).isSome = true) ∧
    (∀ (t : Node) (k : List (Fin 256)) (v : List Nat),
      insert_at ((from_raw k false).length + t.size + 1) t (from_raw k false) v =
        some (insert t k v)) ∧
    from_raw [] false = [] ∧
    (∀ (ch : Fin 16 → Node) (bv : Option (List Nat)) (v : List Nat),
      insert (Node.branch ch bv) [] v = Node.branch ch (some v)) ∧
    (∀ (ch : Fin 16 → Node) (bv : Option (List Nat)), get (Node.branch ch bv) [] = bv) ∧
    (∀ (t : Node) (k : List (Fin 256)) (v : List Nat), get (insert t k v) k = some v) :=
  ⟨insert_at_total, insert_eq_insert_at, rfl, insert_branch_nil_key,
    fun _ _ => rfl,
    fun t k v => by
      show get_at (insert t k v) (from_raw k false) = some v
      rw [get_at_insert, if_pos rfl]⟩

theorem claim_C10_witness :
    (([] : List (Fin 16)).length + Node.null.size < 2) ∧
      (insert_at 2 Node.null [] []).isSome = true :=
  ⟨by decide, claim_C10.1 2 Node.null [] [] (by decide)⟩
